import Mathlib

/-!
# Verification of the `gyu` wallet library's Bitcoin core

Shallow embedding of the `gyu` repository's Bitcoin primitives
(`src/bitcoin/src/transaction.rs`, `mnemonic.rs`, `extended_private_key.rs`,
`extended_public_key.rs`, `derivation_path.rs`, `amount.rs`,
`src/model/src/no_std/io.rs`) together with proofs and refutations of the
specification's claims about them.

Conventions of the embedding:

* Bytes are `Nat` values (< 256 for real data); byte strings are `List Nat`.
* Machine integers are `Nat`/`Int` with explicit `% 2^w` where the Rust code
  truncates (`as u8`, `as u32`, ...).
* The `no_std::io::Read` implementation for `&[u8]` copies
  `min(buf.len, self.len)` bytes and leaves the remaining buffer bytes at
  their initial `0`, returning `Ok` — a short read silently zero-fills.
  `readBytes` models exactly this.
* Fallible Rust code returns `Except`.  A Rust panic (out-of-bounds slice
  index) is modelled by the distinguished `Failure.panic` outcome, distinct
  from every typed `TransactionError`.
* External crates (`secp256k1`, `hmac`/`sha2`, `pbkdf2`, the wordlist table)
  are treated as the collaborators the specification declares them to be:
  they enter the embedding as explicit function parameters, and theorems
  quantify over all instantiations (with interface hypotheses such as output
  lengths where the surrounding code relies on them).
-/

namespace Gyu

/-! ## Little-endian byte helpers -/

/-- `w`-byte little-endian encoding of `n % 2^(8w)` (Rust `to_le_bytes` after
an `as uW` truncation). -/
def leBytes (w n : Nat) : List Nat :=
  (List.range w).map (fun i => n / 256 ^ i % 256)

/-- Value of a little-endian byte string (Rust `uW::from_le_bytes`). -/
def leValue (bs : List Nat) : Nat :=
  bs.foldr (fun b acc => b + 256 * acc) 0

theorem leBytes_length (w n : Nat) : (leBytes w n).length = w := by
  simp [leBytes]

theorem leBytes_succ (w n : Nat) :
    leBytes (w + 1) n = n % 256 :: leBytes w (n / 256) := by
  simp only [leBytes, List.range_succ_eq_map, List.map_cons, List.map_map]
  congr 1
  · simp
  · apply List.map_congr_left
    intro i _
    simp [Function.comp, pow_succ, Nat.div_div_eq_div_mul, Nat.mul_comm]

theorem leValue_leBytes {w n : Nat} (h : n < 256 ^ w) :
    leValue (leBytes w n) = n := by
  induction w generalizing n with
  | zero =>
      have hn : n = 0 := by simpa using h
      simp [leBytes, leValue, hn]
  | succ w ih =>
      rw [leBytes_succ]
      simp only [leValue, List.foldr_cons]
      have hdiv : n / 256 < 256 ^ w := by
        rw [Nat.div_lt_iff_lt_mul (by norm_num)]
        calc n < 256 ^ (w + 1) := h
        _ = 256 ^ w * 256 := by ring
      have := ih hdiv
      simp only [leValue] at this
      rw [this]
      omega

/-- Model of `reader.read(&mut buf)` for a `&[u8]` reader and a fresh
zero-initialised `buf` of length `n` (`src/model/src/no_std/io.rs`):
the buffer receives the first `min(n, |bs|)` bytes, keeps zeros beyond
them, and the reader advances by the amount actually read. -/
def readBytes (n : Nat) (bs : List Nat) : List Nat × List Nat :=
  (bs.take n ++ List.replicate (n - bs.length) 0, bs.drop n)

theorem readBytes_exact {n : Nat} {xs : List Nat} (h : xs.length = n)
    (rest : List Nat) : readBytes n (xs ++ rest) = (xs, rest) := by
  subst h
  simp [readBytes, List.take_append, List.drop_append]

/-! ## Errors (`gyu_model`: `transaction.rs`, `amount.rs` — these model-crate
files are not under `src/`; the error enums are modelled from their uses in
`src/bitcoin/src` and the specification's error taxonomy) -/

/-- `AmountError` as used by `BitcoinAmount::from_satoshi`
(`src/bitcoin/src/amount.rs` line 63); the source carries the offending and
maximum values as strings, modelled here as the integers themselves. -/
inductive AmountError where
  | AmountOutOfBounds (satoshis max : Int)
  deriving Repr, DecidableEq

/-- `TransactionError` constructors used by `src/bitcoin/src/transaction.rs`. -/
inductive TransactionError where
  | InvalidVariableSizeInteger (n : Nat)
  | InvalidSegwitFlag (n : Nat)
  | InvalidTransactionId (n : Nat)
  | InvalidInputs (ctx : String)
  | InvalidScriptPubKey (ctx : String)
  | MissingOutpointScriptPublicKey
  | AmountError (e : AmountError)
  deriving Repr, DecidableEq

/-- Outcome of running embedded Rust code: a typed error (`Result::Err`) or a
panic (an out-of-bounds index aborts the process rather than returning). -/
inductive Failure where
  | err (e : TransactionError)
  | panic
  deriving Repr, DecidableEq

deriving instance DecidableEq for Except

@[simp] theorem except_ok_bind {ε α β : Type} (a : α) (f : α → Except ε β) :
    (Except.ok a >>= f) = f a := rfl

@[simp] theorem except_error_bind {ε α β : Type} (e : ε) (f : α → Except ε β) :
    ((Except.error e : Except ε α) >>= f) = Except.error e := rfl

/-! ## Variable-length integers (`src/bitcoin/src/transaction.rs` 22-68) -/

/-- `variable_length_integer(value)` (transaction.rs 22-29).  The source
returns `Result` but every branch is `Ok`, so the model is total.  Note the
source's range bound `65536..=4292967295` (sic — not `4294967295`) and its
`value as u32` truncation in the fall-through branch. -/
def variable_length_integer (value : Nat) : List Nat :=
  if value ≤ 252 then [value]
  else if value ≤ 65535 then 0xfd :: leBytes 2 value
  else if value ≤ 4292967295 then 0xfe :: leBytes 4 value
  else 0xff :: leBytes 4 (value % 2 ^ 32)

/-- `read_variable_length_integer(reader)` (transaction.rs 31-68), with the
zero-filling short-read semantics of `no_std::io`.  Returns the decoded value
and the remaining bytes. -/
def read_variable_length_integer (bs : List Nat) :
    Except Failure (Nat × List Nat) :=
  let r := readBytes 1 bs
  let flag := r.1.headI
  if flag ≤ 252 then .ok (flag, r.2)
  else if flag = 0xfd then
    let r2 := readBytes 2 r.2
    let s := leValue r2.1
    if s < 253 then .error (.err (.InvalidVariableSizeInteger s))
    else .ok (s, r2.2)
  else if flag = 0xfe then
    let r2 := readBytes 4 r.2
    let s := leValue r2.1
    if s < 65536 then .error (.err (.InvalidVariableSizeInteger s))
    else .ok (s, r2.2)
  else
    let r2 := readBytes 8 r.2
    let s := leValue r2.1
    if s < 4294967296 then .error (.err (.InvalidVariableSizeInteger s))
    else .ok (s, r2.2)

@[simp] theorem readBytes_one_cons (b : Nat) (rest : List Nat) :
    readBytes 1 (b :: rest) = ([b], rest) := by
  simpa using @readBytes_exact 1 [b] (by simp) rest

/-- Canonical-range round trip: decoding an encoded value below the encoder's
`0xfe`-branch upper bound `4292967295` returns the value and leaves trailing
bytes unconsumed. -/
theorem varint_roundtrip {n : Nat} (h : n ≤ 4292967295) (rest : List Nat) :
    read_variable_length_integer (variable_length_integer n ++ rest) =
      .ok (n, rest) := by
  by_cases h1 : n ≤ 252
  · have henc : variable_length_integer n = [n] := by simp [variable_length_integer, h1]
    rw [henc, List.singleton_append]
    simp [read_variable_length_integer, h1]
  · by_cases h2 : n ≤ 65535
    · have henc : variable_length_integer n = 0xfd :: leBytes 2 n := by
        simp [variable_length_integer, h1, h2]
      rw [henc, List.cons_append]
      have hr2 : readBytes 2 (leBytes 2 n ++ rest) = (leBytes 2 n, rest) :=
        readBytes_exact (leBytes_length 2 n) rest
      have hval : leValue (leBytes 2 n) = n := leValue_leBytes (by norm_num; omega)
      simp only [read_variable_length_integer, readBytes_one_cons, List.headI, hr2, hval]
      norm_num
      omega
    · have henc : variable_length_integer n = 0xfe :: leBytes 4 n := by
        simp [variable_length_integer, h1, h2, h]
      rw [henc, List.cons_append]
      have hr2 : readBytes 4 (leBytes 4 n ++ rest) = (leBytes 4 n, rest) :=
        readBytes_exact (leBytes_length 4 n) rest
      have hval : leValue (leBytes 4 n) = n := leValue_leBytes (by norm_num; omega)
      simp only [read_variable_length_integer, readBytes_one_cons, List.headI, hr2, hval]
      norm_num
      omega

/-- A `0xfd`-marked encoding whose payload value fits a shorter form is
rejected as non-minimal. -/
theorem varint_reject_fd {s : Nat} (h : s < 253) (rest : List Nat) :
    read_variable_length_integer (0xfd :: (leBytes 2 s ++ rest)) =
      .error (.err (.InvalidVariableSizeInteger s)) := by
  have hr2 : readBytes 2 (leBytes 2 s ++ rest) = (leBytes 2 s, rest) :=
    readBytes_exact (leBytes_length 2 s) rest
  have hval : leValue (leBytes 2 s) = s := leValue_leBytes (by norm_num; omega)
  simp only [read_variable_length_integer, readBytes_one_cons, List.headI, hr2, hval]
  norm_num
  omega

/-- A `0xfe`-marked encoding whose payload value fits a shorter form is
rejected as non-minimal. -/
theorem varint_reject_fe {s : Nat} (h : s < 65536) (rest : List Nat) :
    read_variable_length_integer (0xfe :: (leBytes 4 s ++ rest)) =
      .error (.err (.InvalidVariableSizeInteger s)) := by
  have hr2 : readBytes 4 (leBytes 4 s ++ rest) = (leBytes 4 s, rest) :=
    readBytes_exact (leBytes_length 4 s) rest
  have hval : leValue (leBytes 4 s) = s := leValue_leBytes (by norm_num; omega)
  simp only [read_variable_length_integer, readBytes_one_cons, List.headI, hr2, hval]
  norm_num
  omega

/-- A `0xff`-marked encoding whose payload value fits a shorter form is
rejected as non-minimal. -/
theorem varint_reject_ff {s : Nat} (h : s < 4294967296) (rest : List Nat) :
    read_variable_length_integer (0xff :: (leBytes 8 s ++ rest)) =
      .error (.err (.InvalidVariableSizeInteger s)) := by
  have hr2 : readBytes 8 (leBytes 8 s ++ rest) = (leBytes 8 s, rest) :=
    readBytes_exact (leBytes_length 8 s) rest
  have hval : leValue (leBytes 8 s) = s := leValue_leBytes (by norm_num; omega)
  simp only [read_variable_length_integer, readBytes_one_cons, List.headI, hr2, hval]
  norm_num
  omega

/-! ## Signature hash codes (`transaction.rs` 141-188) -/

/-- `SignatureHash` (transaction.rs 141-155). -/
inductive SignatureHash where
  | SIG_ALL
  | SIG_NONE
  | SIG_SINGLE
  | SIGHASH_ALL_SIGHASH_ANYONECANPAY
  | SIGHASH_NONE_SIGHASH_ANYONECANPAY
  | SIGHASH_SINGLE_SIGHASH_ANYONECANPAY
  deriving Repr, DecidableEq

/-- The discriminant value of a `SignatureHash` (its `as u32` value). -/
def SignatureHash.val : SignatureHash → Nat
  | .SIG_ALL => 0x01
  | .SIG_NONE => 0x02
  | .SIG_SINGLE => 0x03
  | .SIGHASH_ALL_SIGHASH_ANYONECANPAY => 0x81
  | .SIGHASH_NONE_SIGHASH_ANYONECANPAY => 0x82
  | .SIGHASH_SINGLE_SIGHASH_ANYONECANPAY => 0x83

/-- `SignatureHash::from_byte` (transaction.rs 176-188): every unrecognized
byte falls through to `SIG_ALL`. -/
def SignatureHash.from_byte (byte : Nat) : SignatureHash :=
  if byte = 0x01 then .SIG_ALL
  else if byte = 0x02 then .SIG_NONE
  else if byte = 0x03 then .SIG_SINGLE
  else if byte = 0x81 then .SIGHASH_ALL_SIGHASH_ANYONECANPAY
  else if byte = 0x82 then .SIGHASH_NONE_SIGHASH_ANYONECANPAY
  else if byte = 0x83 then .SIGHASH_SINGLE_SIGHASH_ANYONECANPAY
  else .SIG_ALL

/-! ## Transaction data model (`transaction.rs` 212-302, 424-486;
`format.rs`; `amount.rs`) -/

/-- `BitcoinFormat` (`src/bitcoin/src/format.rs`). -/
inductive BitcoinFormat where
  | P2PKH
  | P2WSH
  | P2SH_P2WPKH
  | Bech32
  deriving Repr, DecidableEq

/-- `MAX_COINS` (`src/bitcoin/src/amount.rs` line 8). -/
def MAX_COINS : Int := 21000000 * 100000000

/-- `BitcoinAmount::from_satoshi` (amount.rs 59-68); `BitcoinAmount` is a
newtype over `i64`, modelled as `Int`. -/
def from_satoshi (satoshis : Int) : Except AmountError Int :=
  if -MAX_COINS ≤ satoshis ∧ satoshis ≤ MAX_COINS then .ok satoshis
  else .error (.AmountOutOfBounds satoshis MAX_COINS)

/-- `Outpoint<N>` (transaction.rs 212-220).  A `BitcoinAddress<N>` is an
encoded string plus a `BitcoinFormat`; the embedding keeps the format (which
the transaction code inspects) and an abstract payload `A` standing for the
encoded text. -/
structure Outpoint (A : Type) where
  reverse_transaction_id : List Nat
  index : Nat
  amount : Option Int
  script_pub_key : Option (List Nat)
  redeem_script : Option (List Nat)
  address : Option (BitcoinFormat × A)
  deriving Repr, DecidableEq

/-- `BitcoinTransactionInput<N>` (transaction.rs 292-302). -/
structure BitcoinTransactionInput (A : Type) where
  outpoint : Outpoint A
  script_sig : List Nat
  sequence : List Nat
  sighash_code : SignatureHash
  witnesses : List (List Nat)
  is_signed : Bool
  additional_witness : Option (List Nat × Bool)
  witness_script_data : Option (List Nat)
  deriving Repr, DecidableEq

/-- `BitcoinTransactionOutput` (transaction.rs 424-428). -/
structure BitcoinTransactionOutput where
  amount : Int
  script_pub_key : List Nat
  deriving Repr, DecidableEq

/-- `BitcoinTransactionParameters<N>` (transaction.rs 479-486). -/
structure BitcoinTransactionParameters (A : Type) where
  version : Nat
  inputs : List (BitcoinTransactionInput A)
  outputs : List BitcoinTransactionOutput
  lock_time : Nat
  segwit_flag : Bool
  deriving Repr, DecidableEq

/-! ## Transaction reading (`transaction.rs` 70-91, 345-386, 441-455,
489-542) -/

/-- The per-byte element reader closure used throughout `transaction.rs`
(`|s| { let mut byte = [0u8; 1]; s.read(&mut byte)?; Ok(byte[0]) }`). -/
def byteRead (bs : List Nat) : Except Failure (Nat × List Nat) :=
  let r := readBytes 1 bs
  .ok (r.1.headI, r.2)

/-- Reading `count` elements in sequence (the `(0..count).map(|_| func(&mut
reader)).collect()` of `BitcoinVector::read`). -/
def readCount {α : Type} (elemRead : List Nat → Except Failure (α × List Nat)) :
    Nat → List Nat → Except Failure (List α × List Nat)
  | 0, bs => .ok ([], bs)
  | n + 1, bs => do
      let (x, r) ← elemRead bs
      let (xs, r2) ← readCount elemRead n r
      .ok (x :: xs, r2)

/-- `BitcoinVector::read` (transaction.rs 73-79): a variable-length count
followed by that many elements. -/
def BitcoinVector.read {α : Type}
    (elemRead : List Nat → Except Failure (α × List Nat)) (bs : List Nat) :
    Except Failure (List α × List Nat) := do
  let (count, r) ← read_variable_length_integer bs
  readCount elemRead count r

/-- One witness-stack element as read in `BitcoinTransactionParameters::read`
(transaction.rs 513-520): `BitcoinVector::read_witness` with a byte reader,
then `[variable_length_integer(size as u64)?, witness?].concat()` — the
element is stored with its length prefix re-attached.  (`read_witness`
returns the element count alongside the `Result` of collecting the elements;
the caller's `witness?` propagates an inner failure, which this composition
reproduces.) -/
def witnessElemRead (bs : List Nat) : Except Failure (List Nat × List Nat) := do
  let (size, r) ← read_variable_length_integer bs
  let (w, r2) ← readCount byteRead size r
  .ok (variable_length_integer size ++ w, r2)

/-- `BitcoinTransactionInput::read` (transaction.rs 345-386).  `Outpoint::new`
is called with `address = None`, which skips every script validation and
stores `None` for all optional fields (transaction.rs 278).  The
`script_sig[length]` sighash lookup panics when `length` is not in bounds;
the model returns `Failure.panic` there. -/
def BitcoinTransactionInput.read {A : Type} (bs : List Nat) :
    Except Failure (BitcoinTransactionInput A × List Nat) := do
  let (transaction_hash, r1) := readBytes 32 bs
  let (vin, r2) := readBytes 4 r1
  let outpoint : Outpoint A :=
    ⟨transaction_hash, leValue vin, none, none, none, none⟩
  let (script_sig, r3) ← BitcoinVector.read byteRead r2
  let (sequence, r4) := readBytes 4 r3
  let (script_sig_len, _) ← read_variable_length_integer script_sig
  let sighash_byte ←
    if script_sig_len = 0 then pure 0x01
    else
      match script_sig[script_sig_len]? with
      | some b => pure b
      | none => .error .panic
  .ok (⟨outpoint, script_sig, sequence, SignatureHash.from_byte sighash_byte,
        [], decide (0 < script_sig.length), none, none⟩, r4)

/-- `BitcoinTransactionOutput::read` (transaction.rs 441-455); the amount
bytes are read as `u64`, cast `as i64` (two's complement), and bounds-checked
by `BitcoinAmount::from_satoshi`. -/
def BitcoinTransactionOutput.read (bs : List Nat) :
    Except Failure (BitcoinTransactionOutput × List Nat) := do
  let (amount, r1) := readBytes 8 bs
  let (script_pub_key, r2) ← BitcoinVector.read byteRead r1
  let v := leValue amount
  let iv : Int := if v < 2 ^ 63 then (v : Int) else (v : Int) - 2 ^ 64
  match from_satoshi iv with
  | .ok a => .ok (⟨a, script_pub_key⟩, r2)
  | .error e => .error (.err (.AmountError e))

/-- The per-input witness attachment loop of
`BitcoinTransactionParameters::read` (transaction.rs 511-528): each input's
witness stack is read in input order; a non-empty stack overwrites the
input's sighash code with the last byte of its first element (`witness[0]`
always starts with its length prefix, so it is non-empty and `getLastD`
never uses its default) and marks the input signed. -/
def attachWitnesses {A : Type} :
    List (BitcoinTransactionInput A) → List Nat →
      Except Failure (List (BitcoinTransactionInput A) × List Nat)
  | [], bs => .ok ([], bs)
  | input :: rest, bs => do
      let (witness, r) ← BitcoinVector.read witnessElemRead bs
      let input :=
        if 0 < witness.length then
          { input with
            sighash_code := SignatureHash.from_byte (witness.headI.getLastD 0)
            is_signed := true
            witnesses := witness }
        else { input with witnesses := witness }
      let (rest2, r2) ← attachWitnesses rest r
      .ok (input :: rest2, r2)

/-- `BitcoinTransactionParameters::read` (transaction.rs 489-542). -/
def BitcoinTransactionParameters.read {A : Type} (bs : List Nat) :
    Except Failure (BitcoinTransactionParameters A × List Nat) := do
  let (version, r1) := readBytes 4 bs
  let (inputs0, r2) ← BitcoinVector.read BitcoinTransactionInput.read r1
  let (segwit_flag, inputs1, r3) ←
    if inputs0.isEmpty then do
      let (flag, rf) := readBytes 1 r2
      if flag.headI = 1 then do
        let (ins, r) ← BitcoinVector.read BitcoinTransactionInput.read rf
        pure (true, ins, r)
      else .error (.err (.InvalidSegwitFlag flag.headI))
    else pure (false, inputs0, r2)
  let (outputs, r4) ← BitcoinVector.read BitcoinTransactionOutput.read r3
  let (inputs, r5) ←
    if segwit_flag then attachWitnesses inputs1 r4 else pure (inputs1, r4)
  let (lock_time, r6) := readBytes 4 r5
  .ok (⟨leValue version, inputs, outputs, leValue lock_time, segwit_flag⟩, r6)

/-! ## Transaction writing (`transaction.rs` 387-421, 457-463, 711-751) -/

/-- `BitcoinTransactionInput::serialize` (transaction.rs 387-421). -/
def BitcoinTransactionInput.serialize {A : Type}
    (input : BitcoinTransactionInput A) (raw : Bool) :
    Except Failure (List Nat) := do
  let base := input.outpoint.reverse_transaction_id ++
    leBytes 4 input.outpoint.index
  let middle ←
    if raw then pure [0x00]
    else if input.script_sig.length = 0 then
      match input.outpoint.address with
      | some (fmt, _) =>
        match fmt with
        | .Bech32 => pure [0x00]
        | .P2WSH => pure [0x00]
        | _ =>
          match input.outpoint.script_pub_key with
          | some script => pure (variable_length_integer script.length ++ script)
          | none => Except.error (.err .MissingOutpointScriptPublicKey)
      | none => pure [0x00]
    else pure (variable_length_integer input.script_sig.length ++
      input.script_sig)
  .ok (base ++ middle ++ input.sequence)

/-- `BitcoinTransactionOutput::serialize` (transaction.rs 457-463): the `i64`
amount in little-endian two's complement, then the length-prefixed script.
Every branch of the source returns `Ok`, so the model is total. -/
def BitcoinTransactionOutput.serialize (o : BitcoinTransactionOutput) :
    List Nat :=
  leBytes 8 (o.amount % (2 ^ 64 : Int)).toNat ++
    variable_length_integer o.script_pub_key.length ++ o.script_pub_key

/-- The input loop of `to_transaction_bytes` (transaction.rs 720-726): each
input serialized with `raw = !input.is_signed`. -/
def serializeInputs {A : Type} :
    List (BitcoinTransactionInput A) → Except Failure (List Nat)
  | [] => .ok []
  | i :: rest => do
      let b ← i.serialize !i.is_signed
      let bs ← serializeInputs rest
      .ok (b ++ bs)

/-- The witness section of `to_transaction_bytes` (transaction.rs 735-747):
per input, `0x00` for an empty stack, otherwise the element count followed by
the stored (already length-prefixed) elements. -/
def witnessSection {A : Type} (inputs : List (BitcoinTransactionInput A)) :
    List Nat :=
  inputs.foldr (fun input acc =>
    (if input.witnesses.length = 0 then [0x00]
     else variable_length_integer input.witnesses.length ++
       input.witnesses.flatten) ++ acc) []

/-- `to_transaction_bytes` (transaction.rs 711-751).  `has_witness` is the
source's running flag: true iff some input carries a non-empty witness stack;
the witness section is emitted only under that flag, independent of
`segwit_flag`. -/
def to_transaction_bytes {A : Type} (p : BitcoinTransactionParameters A) :
    Except Failure (List Nat) := do
  let ins ← serializeInputs p.inputs
  let has_witness := p.inputs.any (fun i => 0 < i.witnesses.length)
  .ok (leBytes 4 p.version ++
    (if p.segwit_flag then [0x00, 0x01] else []) ++
    variable_length_integer p.inputs.length ++ ins ++
    variable_length_integer p.outputs.length ++
    (p.outputs.map BitcoinTransactionOutput.serialize).flatten ++
    (if has_witness then witnessSection p.inputs else []) ++
    leBytes 4 p.lock_time)

@[simp] theorem except_pure_ok {ε α : Type} (a : α) :
    (pure a : Except ε α) = Except.ok a := rfl

/-! ## Well-formed wire encodings

A `WireTx` describes the exact byte-level content of one transaction
encoding; `encodeWireTx` lays it out on the wire.  The well-formedness
conditions below carve out the encodings on which
`BitcoinTransactionParameters::read` runs to completion without exhausting
the reader, panicking, or rejecting a count. -/

/-- The upper bound of the encoder's `0xfe` branch (the `4292967295` in
`variable_length_integer`); counts up to it survive the round trip. -/
abbrev VMAX : Nat := 4292967295

structure WireInput where
  txid : List Nat
  vin : Nat
  scriptSig : List Nat
  sequence : List Nat
  /-- Raw witness-stack elements (without length prefixes); used only when
  the transaction is segwit-encoded. -/
  stack : List (List Nat)
  deriving Repr, DecidableEq

structure WireOutput where
  /-- The `u64` value of the 8 amount bytes. -/
  amount : Nat
  scriptPubKey : List Nat
  deriving Repr, DecidableEq

structure WireTx where
  version : Nat
  inputs : List WireInput
  outputs : List WireOutput
  lockTime : Nat
  segwit : Bool
  deriving Repr, DecidableEq

def encodeWireInput (wi : WireInput) : List Nat :=
  wi.txid ++ leBytes 4 wi.vin ++
    (variable_length_integer wi.scriptSig.length ++
      (wi.scriptSig ++ wi.sequence))

def encodeWitnessStack (stack : List (List Nat)) : List Nat :=
  variable_length_integer stack.length ++
    (stack.map (fun e => variable_length_integer e.length ++ e)).flatten

def encodeWireOutput (wo : WireOutput) : List Nat :=
  leBytes 8 wo.amount ++
    (variable_length_integer wo.scriptPubKey.length ++ wo.scriptPubKey)

def encodeWireTx (t : WireTx) : List Nat :=
  leBytes 4 t.version ++
    ((if t.segwit then [0x00, 0x01] else []) ++
      (variable_length_integer t.inputs.length ++
        ((t.inputs.map encodeWireInput).flatten ++
          (variable_length_integer t.outputs.length ++
            ((t.outputs.map encodeWireOutput).flatten ++
              ((if t.segwit then
                  (t.inputs.map (fun wi => encodeWitnessStack wi.stack)).flatten
                else []) ++
                leBytes 4 t.lockTime))))))

/-- The scriptSig's leading variable-length integer decodes and, when
non-zero, indexes inside the scriptSig — precisely what keeps the
`script_sig[length]` sighash lookup of `BitcoinTransactionInput::read` from
panicking. -/
def sighashIndexOk (ss : List Nat) : Bool :=
  match read_variable_length_integer ss with
  | .ok (l, _) => decide (l = 0) || decide (l < ss.length)
  | .error _ => false

def wfInput (wi : WireInput) : Prop :=
  wi.txid.length = 32 ∧ wi.vin < 2 ^ 32 ∧ wi.sequence.length = 4 ∧
    wi.scriptSig.length ≤ VMAX ∧ sighashIndexOk wi.scriptSig = true

def wfStack (stack : List (List Nat)) : Prop :=
  stack.length ≤ VMAX ∧ ∀ e ∈ stack, e.length ≤ VMAX

/-- The `as i64` reinterpretation of a `u64` value. -/
def i64ofU64 (v : Nat) : Int :=
  if v < 2 ^ 63 then (v : Int) else (v : Int) - 2 ^ 64

def wfOutput (wo : WireOutput) : Prop :=
  wo.amount < 2 ^ 64 ∧ wo.scriptPubKey.length ≤ VMAX ∧
    -MAX_COINS ≤ i64ofU64 wo.amount ∧ i64ofU64 wo.amount ≤ MAX_COINS

def wfWireTx (t : WireTx) : Prop :=
  t.version < 2 ^ 32 ∧ t.lockTime < 2 ^ 32 ∧
    t.inputs ≠ [] ∧ t.inputs.length ≤ VMAX ∧ t.outputs.length ≤ VMAX ∧
    (∀ wi ∈ t.inputs, wfInput wi ∧ wfStack wi.stack) ∧
    (∀ wo ∈ t.outputs, wfOutput wo) ∧
    (t.segwit = true → ∃ wi ∈ t.inputs, wi.stack ≠ [])

instance : DecidablePred wfInput := fun wi => by unfold wfInput; infer_instance
instance : DecidablePred wfStack := fun s => by unfold wfStack; infer_instance
instance : DecidablePred wfOutput := fun wo => by unfold wfOutput; infer_instance
instance : DecidablePred wfWireTx := fun t => by unfold wfWireTx; infer_instance

/-- The sighash code `BitcoinTransactionInput::read` records for a given raw
scriptSig (assuming the lookup stays in bounds). -/
def parsedSighash (ss : List Nat) : SignatureHash :=
  match read_variable_length_integer ss with
  | .ok (l, _) =>
      if l = 0 then SignatureHash.from_byte 0x01
      else SignatureHash.from_byte (ss.getD l 0)
  | .error _ => .SIG_ALL

/-- The in-memory input `BitcoinTransactionInput::read` produces for an
encoded `WireInput` (before any witness attachment). -/
def inputOf (wi : WireInput) : BitcoinTransactionInput Unit :=
  ⟨⟨wi.txid, wi.vin, none, none, none, none⟩, wi.scriptSig, wi.sequence,
    parsedSighash wi.scriptSig, [], decide (0 < wi.scriptSig.length),
    none, none⟩

/-- Witness-stack elements as stored by the reader: each raw element with its
length prefix re-attached. -/
def stackElems (stack : List (List Nat)) : List (List Nat) :=
  stack.map (fun e => variable_length_integer e.length ++ e)

/-- The in-memory input after the witness-attachment pass. -/
def attachOf (wi : WireInput) : BitcoinTransactionInput Unit :=
  let i := inputOf wi
  let w := stackElems wi.stack
  if 0 < w.length then
    { i with
      sighash_code := SignatureHash.from_byte (w.headI.getLastD 0)
      is_signed := true
      witnesses := w }
  else { i with witnesses := w }

/-- The parameters value produced by parsing an encoded `WireTx`. -/
def paramsOf (t : WireTx) : BitcoinTransactionParameters Unit :=
  ⟨t.version,
    if t.segwit then t.inputs.map attachOf else t.inputs.map inputOf,
    t.outputs.map (fun wo => ⟨i64ofU64 wo.amount, wo.scriptPubKey⟩),
    t.lockTime, t.segwit⟩

/-! ### Parsing well-formed encodings -/

theorem readCount_bytes (xs : List Nat) :
    ∀ rest, readCount byteRead xs.length (xs ++ rest) = .ok (xs, rest) := by
  induction xs with
  | nil => intro rest; rfl
  | cons x xs ih =>
      intro rest
      simp only [List.length_cons, List.cons_append, readCount]
      have hb : byteRead (x :: (xs ++ rest)) = .ok (x, xs ++ rest) := by
        simp [byteRead]
      rw [hb]
      simp only [except_ok_bind]
      rw [ih rest]
      rfl

theorem byteVector_encode {ss : List Nat} (h : ss.length ≤ VMAX)
    (rest : List Nat) :
    BitcoinVector.read byteRead
        (variable_length_integer ss.length ++ (ss ++ rest)) =
      .ok (ss, rest) := by
  rw [← List.append_assoc]
  simp only [BitcoinVector.read, List.append_assoc, varint_roundtrip h,
    except_ok_bind]
  exact readCount_bytes ss rest

theorem readCount_encode {δ α : Type} (enc : δ → List Nat) (f : δ → α)
    (elemRead : List Nat → Except Failure (α × List Nat)) (P : δ → Prop)
    (helem : ∀ d, P d → ∀ rest, elemRead (enc d ++ rest) = .ok (f d, rest)) :
    ∀ (ds : List δ), (∀ d ∈ ds, P d) → ∀ rest,
      readCount elemRead ds.length ((ds.map enc).flatten ++ rest) =
        .ok (ds.map f, rest) := by
  intro ds
  induction ds with
  | nil => intro _ rest; rfl
  | cons d ds ih =>
      intro hP rest
      simp only [List.map_cons, List.flatten_cons, List.length_cons,
        List.append_assoc, readCount]
      rw [helem d (hP d (by simp)) _]
      simp only [except_ok_bind]
      rw [ih (fun d hd => hP d (by simp [hd])) rest]
      rfl

theorem witnessElemRead_encode {e : List Nat} (h : e.length ≤ VMAX)
    (rest : List Nat) :
    witnessElemRead ((variable_length_integer e.length ++ e) ++ rest) =
      .ok (variable_length_integer e.length ++ e, rest) := by
  rw [List.append_assoc]
  simp only [witnessElemRead, varint_roundtrip h, except_ok_bind]
  rw [readCount_bytes e rest]
  rfl

theorem witnessStack_encode {stack : List (List Nat)} (h : wfStack stack)
    (rest : List Nat) :
    BitcoinVector.read witnessElemRead (encodeWitnessStack stack ++ rest) =
      .ok (stackElems stack, rest) := by
  obtain ⟨hc, he⟩ := h
  simp only [encodeWitnessStack, BitcoinVector.read, List.append_assoc,
    varint_roundtrip hc, except_ok_bind]
  have := readCount_encode (fun e => variable_length_integer e.length ++ e)
    (fun e => variable_length_integer e.length ++ e) witnessElemRead
    (fun e => e.length ≤ VMAX)
    (fun e hP rest => witnessElemRead_encode hP rest) stack he rest
  simpa [stackElems] using this

theorem inputRead_encode {wi : WireInput} (h : wfInput wi) (rest : List Nat) :
    BitcoinTransactionInput.read (encodeWireInput wi ++ rest) =
      .ok (inputOf wi, rest) := by
  obtain ⟨htx, hvin, hseq, hss, hsig⟩ := h
  have hlay : encodeWireInput wi ++ rest =
      wi.txid ++ (leBytes 4 wi.vin ++
        (variable_length_integer wi.scriptSig.length ++
          (wi.scriptSig ++ (wi.sequence ++ rest)))) := by
    simp [encodeWireInput, List.append_assoc]
  rw [hlay]
  simp only [BitcoinTransactionInput.read]
  rw [readBytes_exact htx]
  rw [readBytes_exact (leBytes_length 4 wi.vin)]
  rw [byteVector_encode hss]
  simp only [except_ok_bind]
  rw [readBytes_exact hseq]
  simp only [sighashIndexOk] at hsig
  rcases hval : read_variable_length_integer wi.scriptSig with e | lp
  · rw [hval] at hsig; simp at hsig
  · obtain ⟨l, r⟩ := lp
    rw [hval] at hsig
    simp only [Bool.or_eq_true, decide_eq_true_eq] at hsig
    simp only [except_ok_bind]
    by_cases hl : l = 0
    · subst hl
      have hv4 : leValue (leBytes 4 wi.vin) = wi.vin :=
        leValue_leBytes (by norm_num; omega)
      simp only [if_pos rfl, except_pure_ok, except_ok_bind]
      simp [inputOf, parsedSighash, hval, hv4]
    · have hlt : l < wi.scriptSig.length := by tauto
      have hv4 : leValue (leBytes 4 wi.vin) = wi.vin :=
        leValue_leBytes (by norm_num; omega)
      rw [if_neg hl]
      rw [List.getElem?_eq_getElem hlt]
      simp only [except_pure_ok, except_ok_bind]
      simp [inputOf, parsedSighash, hval, if_neg hl, hv4,
        List.getElem?_eq_getElem hlt]

theorem outputRead_encode {wo : WireOutput} (h : wfOutput wo)
    (rest : List Nat) :
    BitcoinTransactionOutput.read (encodeWireOutput wo ++ rest) =
      .ok (⟨i64ofU64 wo.amount, wo.scriptPubKey⟩, rest) := by
  obtain ⟨hb, hlen, hlo, hhi⟩ := h
  have hlay : encodeWireOutput wo ++ rest =
      leBytes 8 wo.amount ++
        (variable_length_integer wo.scriptPubKey.length ++
          (wo.scriptPubKey ++ rest)) := by
    simp [encodeWireOutput, List.append_assoc]
  rw [hlay]
  simp only [BitcoinTransactionOutput.read]
  rw [readBytes_exact (leBytes_length 8 wo.amount)]
  rw [byteVector_encode hlen]
  simp only [except_ok_bind]
  rw [leValue_leBytes (by norm_num; omega)]
  have : (if wo.amount < 2 ^ 63 then (wo.amount : Int)
      else (wo.amount : Int) - 2 ^ 64) = i64ofU64 wo.amount := rfl
  rw [this]
  simp only [from_satoshi]
  rw [if_pos (And.intro hlo hhi)]

theorem attachWitnesses_encode (ws : List WireInput)
    (h : ∀ wi ∈ ws, wfStack wi.stack) (rest : List Nat) :
    attachWitnesses (ws.map inputOf)
        ((ws.map (fun wi => encodeWitnessStack wi.stack)).flatten ++ rest) =
      .ok (ws.map attachOf, rest) := by
  induction ws with
  | nil => rfl
  | cons wi ws ih =>
      simp only [List.map_cons, List.flatten_cons, List.append_assoc,
        attachWitnesses]
      rw [witnessStack_encode (h wi (by simp)) _]
      simp only [except_ok_bind]
      rw [ih (fun w hw => h w (by simp [hw])) ]
      simp only [except_ok_bind]
      rfl

theorem inputVector_encode {ws : List WireInput} (hc : ws.length ≤ VMAX)
    (h : ∀ wi ∈ ws, wfInput wi) (rest : List Nat) :
    BitcoinVector.read BitcoinTransactionInput.read
        (variable_length_integer ws.length ++
          ((ws.map encodeWireInput).flatten ++ rest)) =
      .ok (ws.map inputOf, rest) := by
  simp only [BitcoinVector.read, varint_roundtrip hc, except_ok_bind]
  exact readCount_encode encodeWireInput inputOf _ wfInput
    (fun d hd r => inputRead_encode hd r) ws h rest

theorem outputVector_encode {wos : List WireOutput} (hc : wos.length ≤ VMAX)
    (h : ∀ wo ∈ wos, wfOutput wo) (rest : List Nat) :
    BitcoinVector.read BitcoinTransactionOutput.read
        (variable_length_integer wos.length ++
          ((wos.map encodeWireOutput).flatten ++ rest)) =
      .ok (wos.map (fun wo => ⟨i64ofU64 wo.amount, wo.scriptPubKey⟩), rest) := by
  simp only [BitcoinVector.read, varint_roundtrip hc, except_ok_bind]
  exact readCount_encode encodeWireOutput
    (fun wo => ⟨i64ofU64 wo.amount, wo.scriptPubKey⟩) _ wfOutput
    (fun d hd r => outputRead_encode hd r) wos h rest

theorem paramsRead_encode {t : WireTx} (h : wfWireTx t) :
    @BitcoinTransactionParameters.read Unit (encodeWireTx t) =
      .ok (paramsOf t, []) := by
  obtain ⟨hver, hlock, hne, hic, hoc, hins, houts, _⟩ := h
  have hlockread : readBytes 4 (leBytes 4 t.lockTime) = (leBytes 4 t.lockTime, []) := by
    simpa using readBytes_exact (leBytes_length 4 t.lockTime) []
  have hv4 : leValue (leBytes 4 t.version) = t.version :=
    leValue_leBytes (by norm_num; omega)
  have hl4 : leValue (leBytes 4 t.lockTime) = t.lockTime :=
    leValue_leBytes (by norm_num; omega)
  cases hseg : t.segwit with
  | false =>
      have hlay : encodeWireTx t =
          leBytes 4 t.version ++
            (variable_length_integer t.inputs.length ++
              ((t.inputs.map encodeWireInput).flatten ++
                (variable_length_integer t.outputs.length ++
                  ((t.outputs.map encodeWireOutput).flatten ++
                    leBytes 4 t.lockTime)))) := by
        simp [encodeWireTx, hseg]
      rw [hlay]
      simp only [BitcoinTransactionParameters.read]
      rw [readBytes_exact (leBytes_length 4 t.version)]
      rw [inputVector_encode hic (fun wi hw => (hins wi hw).1)]
      simp only [except_ok_bind]
      have hie : (t.inputs.map inputOf).isEmpty = false := by
        cases hI : t.inputs with
        | nil => exact absurd hI hne
        | cons a l => simp [hI]
      rw [hie]
      simp only [Bool.false_eq_true, if_false, except_pure_ok, except_ok_bind]
      rw [outputVector_encode hoc houts]
      simp only [except_ok_bind, Bool.false_eq_true, if_false, except_pure_ok]
      rw [hlockread]
      simp [paramsOf, hseg, hv4, hl4]
  | true =>
      have hlay : encodeWireTx t =
          leBytes 4 t.version ++
            ((0 : Nat) :: (1 : Nat) ::
              (variable_length_integer t.inputs.length ++
                ((t.inputs.map encodeWireInput).flatten ++
                  (variable_length_integer t.outputs.length ++
                    ((t.outputs.map encodeWireOutput).flatten ++
                      ((t.inputs.map
                          (fun wi => encodeWitnessStack wi.stack)).flatten ++
                        leBytes 4 t.lockTime)))))) := by
        simp [encodeWireTx, hseg]
      rw [hlay]
      simp only [BitcoinTransactionParameters.read]
      rw [readBytes_exact (leBytes_length 4 t.version)]
      have hzero : BitcoinVector.read
          (@BitcoinTransactionInput.read Unit)
          ((0 : Nat) :: (1 : Nat) ::
            (variable_length_integer t.inputs.length ++
              ((t.inputs.map encodeWireInput).flatten ++
                (variable_length_integer t.outputs.length ++
                  ((t.outputs.map encodeWireOutput).flatten ++
                    ((t.inputs.map
                        (fun wi => encodeWitnessStack wi.stack)).flatten ++
                      leBytes 4 t.lockTime)))))) =
          .ok ([], (1 : Nat) ::
            (variable_length_integer t.inputs.length ++
              ((t.inputs.map encodeWireInput).flatten ++
                (variable_length_integer t.outputs.length ++
                  ((t.outputs.map encodeWireOutput).flatten ++
                    ((t.inputs.map
                        (fun wi => encodeWitnessStack wi.stack)).flatten ++
                      leBytes 4 t.lockTime)))))) := rfl
      rw [hzero]
      simp only [except_ok_bind, List.isEmpty_nil, if_true, readBytes_one_cons,
        List.headI]
      rw [inputVector_encode hic (fun wi hw => (hins wi hw).1)]
      simp only [except_ok_bind, except_pure_ok, eq_self_iff_true, if_true]
      rw [outputVector_encode hoc houts]
      simp only [except_ok_bind, eq_self_iff_true, if_true]
      rw [attachWitnesses_encode t.inputs (fun wi hw => (hins wi hw).2)]
      simp only [except_ok_bind]
      rw [hlockread]
      simp [paramsOf, hseg, hv4, hl4]

/-! ### Serializing the parsed values -/

theorem inputSerialize_encode {i : BitcoinTransactionInput Unit}
    {wi : WireInput}
    (ho : i.outpoint = ⟨wi.txid, wi.vin, none, none, none, none⟩)
    (hss : i.script_sig = wi.scriptSig) (hsq : i.sequence = wi.sequence)
    (hempty : i.is_signed = false → wi.scriptSig = []) :
    i.serialize (!i.is_signed) = .ok (encodeWireInput wi) := by
  cases hsgn : i.is_signed with
  | false =>
      have h0 : wi.scriptSig = [] := hempty hsgn
      simp [BitcoinTransactionInput.serialize, ho, hss, hsq, encodeWireInput,
        h0, variable_length_integer]
  | true =>
      by_cases h0 : wi.scriptSig = []
      · simp [BitcoinTransactionInput.serialize, ho, hss, hsq, encodeWireInput,
          h0, variable_length_integer]
      · have hlen : ¬wi.scriptSig.length = 0 := by simpa using h0
        simp [BitcoinTransactionInput.serialize, ho, hss, hsq, encodeWireInput,
          hlen]

theorem serialize_inputOf (wi : WireInput) :
    (inputOf wi).serialize (!(inputOf wi).is_signed) =
      .ok (encodeWireInput wi) := by
  refine inputSerialize_encode rfl rfl rfl ?_
  intro hs
  simp only [inputOf, decide_eq_false_iff_not, Nat.pos_iff_ne_zero] at hs
  simpa using hs

/-- After witness attachment the stored witness stack is always
`stackElems wi.stack`, and the input's other serialized fields are those of
`inputOf wi`. -/
theorem attachOf_witnesses (wi : WireInput) :
    (attachOf wi).witnesses = stackElems wi.stack := by
  unfold attachOf
  by_cases h : 0 < (stackElems wi.stack).length <;> simp [h]

theorem serialize_attachOf (wi : WireInput) :
    (attachOf wi).serialize (!(attachOf wi).is_signed) =
      .ok (encodeWireInput wi) := by
  unfold attachOf
  by_cases h : 0 < (stackElems wi.stack).length
  · rw [if_pos h]
    exact inputSerialize_encode rfl rfl rfl (by intro hc; cases hc)
  · rw [if_neg h]
    refine inputSerialize_encode rfl rfl rfl ?_
    intro hs
    simp only [inputOf, decide_eq_false_iff_not, Nat.pos_iff_ne_zero] at hs
    simpa using hs

theorem serializeInputs_map {f : WireInput → BitcoinTransactionInput Unit}
    (hf : ∀ wi, (f wi).serialize (!(f wi).is_signed) =
      .ok (encodeWireInput wi)) (ws : List WireInput) :
    serializeInputs (ws.map f) = .ok (ws.map encodeWireInput).flatten := by
  induction ws with
  | nil => rfl
  | cons wi ws ih =>
      simp only [List.map_cons, serializeInputs, hf wi, except_ok_bind, ih,
        List.flatten_cons]

theorem i64_roundtrip {v : Nat} (h : v < 2 ^ 64) :
    (i64ofU64 v % (2 ^ 64 : Int)).toNat = v := by
  unfold i64ofU64
  by_cases hv : v < 2 ^ 63
  · rw [if_pos hv]
    omega
  · rw [if_neg hv]
    omega

theorem serialize_outputOf {wo : WireOutput} (h : wfOutput wo) :
    BitcoinTransactionOutput.serialize ⟨i64ofU64 wo.amount, wo.scriptPubKey⟩ =
      encodeWireOutput wo := by
  unfold BitcoinTransactionOutput.serialize encodeWireOutput
  rw [i64_roundtrip h.1]
  simp [List.append_assoc]

theorem witnessSection_attachOf (ws : List WireInput) :
    witnessSection (ws.map attachOf) =
      (ws.map (fun wi => encodeWitnessStack wi.stack)).flatten := by
  induction ws with
  | nil => rfl
  | cons wi ws ih =>
      simp only [List.map_cons, witnessSection, List.foldr_cons,
        attachOf_witnesses, List.flatten_cons]
      simp only [witnessSection] at ih
      rw [ih]
      congr 1
      by_cases h : (stackElems wi.stack).length = 0
      · have hnil : wi.stack = [] := by
          have := h
          simp only [stackElems, List.length_map] at this
          exact List.eq_nil_of_length_eq_zero this
        simp [h, hnil, encodeWitnessStack, variable_length_integer,
          stackElems]
      · have h' : ¬wi.stack.length = 0 := by
          simpa [stackElems] using h
        simp only [encodeWitnessStack, stackElems, List.length_map, if_neg h']

theorem toBytes_paramsOf {t : WireTx} (h : wfWireTx t) :
    to_transaction_bytes (paramsOf t) = .ok (encodeWireTx t) := by
  obtain ⟨hver, hlock, hne, hic, hoc, hins, houts, hsw⟩ := h
  have houtmap : (t.outputs.map (fun wo =>
      (⟨i64ofU64 wo.amount, wo.scriptPubKey⟩ : BitcoinTransactionOutput))).map
        BitcoinTransactionOutput.serialize = t.outputs.map encodeWireOutput := by
    rw [List.map_map]
    exact List.map_congr_left (fun wo hwo => serialize_outputOf (houts wo hwo))
  cases hseg : t.segwit with
  | false =>
      have hser := serializeInputs_map serialize_inputOf t.inputs
      have hwitb : ((t.inputs.map inputOf).any
          fun i => decide (0 < i.witnesses.length)) = false := by
        simp [List.any_map, inputOf, Function.comp]
      simp only [to_transaction_bytes, paramsOf, hseg, Bool.false_eq_true,
        if_false]
      rw [hser]
      simp only [except_ok_bind, hwitb, Bool.false_eq_true, if_false]
      simp [encodeWireTx, hseg, houtmap, List.append_assoc, List.length_map]
  | true =>
      have hser := serializeInputs_map serialize_attachOf t.inputs
      obtain ⟨wi0, hwi0, hstack0⟩ := hsw hseg
      have hwitb : ((t.inputs.map attachOf).any
          fun i => decide (0 < i.witnesses.length)) = true := by
        refine List.any_eq_true.mpr ⟨attachOf wi0, List.mem_map_of_mem _ hwi0, ?_⟩
        rw [attachOf_witnesses]
        simpa [stackElems, List.length_pos] using hstack0
      simp only [to_transaction_bytes, paramsOf, hseg, eq_self_iff_true,
        if_true]
      rw [hser]
      simp only [except_ok_bind, hwitb, eq_self_iff_true, if_true]
      simp [encodeWireTx, hseg, houtmap, witnessSection_attachOf,
        List.append_assoc, List.length_map]

/-! ## Claims C3, C4, C9, C10 -/

/-- A segwit-flagged encoding with one input and an empty witness stack:
`version ∥ 0x00 0x01 ∥ one input ∥ no outputs ∥ empty witness stack (0x00) ∥
lock_time`. -/
def allEmptyWitnessBytes : List Nat :=
  [1, 0, 0, 0] ++ [0] ++ [1] ++ [1] ++
    (List.replicate 32 0 ++ [0, 0, 0, 0] ++ [0] ++ [255, 255, 255, 255]) ++
    [0] ++ [0] ++ [0, 0, 0, 0]

/-- The parameters `BitcoinTransactionParameters::read` produces for
`allEmptyWitnessBytes`. -/
def allEmptyWitnessParsed : BitcoinTransactionParameters Unit :=
  ⟨1, [⟨⟨List.replicate 32 0, 0, none, none, none, none⟩, [],
    [255, 255, 255, 255], .SIG_ALL, [], false, none, none⟩], [], 0, true⟩

/-- C3, counterexample: a segwit-flagged transaction whose single input has an
empty witness stack parses successfully, but re-serializing it does not
reproduce the input bytes — `to_transaction_bytes` emits the witness section
only when some input's stack is non-empty, so the per-input `0x00` witness
count of the original encoding is dropped. -/
theorem C3_counterexample :
    @BitcoinTransactionParameters.read Unit allEmptyWitnessBytes =
        .ok (allEmptyWitnessParsed, []) ∧
      to_transaction_bytes allEmptyWitnessParsed ≠ .ok allEmptyWitnessBytes := by
  constructor
  · decide
  · decide

/-- C3 (amended): serialize-after-parse reproduces the input byte string for
every *exact, well-formed* encoding — legacy, or segwit with at least one
non-empty witness stack (`wfWireTx`).  The original claim fails for
segwit-flagged encodings whose witness stacks are all empty
(`C3_counterexample`), and the zero-filling reader also accepts truncated
byte strings that re-serialize longer, which `wfWireTx`'s exactness
excludes. -/
theorem C3_tx_roundtrip_amended (t : WireTx) (h : wfWireTx t) :
    @BitcoinTransactionParameters.read Unit (encodeWireTx t) =
        .ok (paramsOf t, []) ∧
      to_transaction_bytes (paramsOf t) = .ok (encodeWireTx t) :=
  ⟨paramsRead_encode h, toBytes_paramsOf h⟩

/-- A concrete witness-bearing segwit transaction for `C3_witness`. -/
def wtx1 : WireTx :=
  ⟨2,
    [⟨List.replicate 32 7, 1, [], [255, 255, 255, 255],
      [[48, 69, 1], [2, 171]]⟩],
    [⟨5000, [118, 169, 20, 9, 8, 7, 136, 172]⟩],
    0, true⟩

/-- C3, witness: the amended round trip at a concrete witness-bearing segwit
transaction. -/
theorem C3_witness :
    wfWireTx wtx1 ∧
      (@BitcoinTransactionParameters.read Unit (encodeWireTx wtx1) =
          .ok (paramsOf wtx1, []) ∧
        to_transaction_bytes (paramsOf wtx1) = .ok (encodeWireTx wtx1)) :=
  ⟨by decide, C3_tx_roundtrip_amended wtx1 (by decide)⟩

/-- C4, counterexample: the value `4292967296` (one above the source's
`0xfe`-branch bound `4292967295`, and below `2^32`) encodes through the
fall-through branch as `0xff` plus only four little-endian bytes; decoding
reads eight bytes, zero-fills the missing four, and rejects the value as
non-minimal for the `0xff` marker — the round trip of the claim fails. -/
theorem C4_counterexample :
    read_variable_length_integer (variable_length_integer 4292967296) =
      .error (.err (.InvalidVariableSizeInteger 4292967296)) := by
  decide

/-- C4 (amended): the variable-length-integer round trip holds for every
value up to `4292967295` (the source's `0xfe`-branch bound, sic — not
`4294967295`): one byte up to 252, `0xfd` + LE u16 for 253..65535, and
`0xfe` + LE u32 above that; beyond `4292967295` the encoder emits `0xff`
plus a *32-bit* payload, which never decodes back
(`C4_counterexample`).  Complete non-minimal encodings of every marker are
rejected with `InvalidVariableSizeInteger`. -/
theorem C4_varint_roundtrip_amended :
    (∀ (n : Nat) (rest : List Nat), n ≤ 4292967295 →
      read_variable_length_integer (variable_length_integer n ++ rest) =
        .ok (n, rest)) ∧
    (∀ (s : Nat) (rest : List Nat), s < 253 →
      read_variable_length_integer (0xfd :: (leBytes 2 s ++ rest)) =
        .error (.err (.InvalidVariableSizeInteger s))) ∧
    (∀ (s : Nat) (rest : List Nat), s < 65536 →
      read_variable_length_integer (0xfe :: (leBytes 4 s ++ rest)) =
        .error (.err (.InvalidVariableSizeInteger s))) ∧
    (∀ (s : Nat) (rest : List Nat), s < 4294967296 →
      read_variable_length_integer (0xff :: (leBytes 8 s ++ rest)) =
        .error (.err (.InvalidVariableSizeInteger s))) :=
  ⟨fun _ rest h => varint_roundtrip h rest,
   fun _ rest h => varint_reject_fd h rest,
   fun _ rest h => varint_reject_fe h rest,
   fun _ rest h => varint_reject_ff h rest⟩

/-- C4, witness: the amended statement applied at concrete values — the
encoder/decoder round trip at `300`, and the rejection of the non-minimal
two-byte encoding of `5`. -/
theorem C4_witness :
    read_variable_length_integer (variable_length_integer 300 ++ [9]) =
        .ok (300, [9]) ∧
      read_variable_length_integer (0xfd :: (leBytes 2 5 ++ [])) =
        .error (.err (.InvalidVariableSizeInteger 5)) :=
  ⟨C4_varint_roundtrip_amended.1 300 [9] (by norm_num),
   C4_varint_roundtrip_amended.2.1 5 [] (by norm_num)⟩

/-- A 42-byte transaction-input encoding whose scriptSig field is the single
byte `0x05`: 32 txid bytes, 4 index bytes, scriptSig vector `[0x01, 0x05]`
(length 1, content `0x05`), 4 sequence bytes. -/
def panicInputBytes : List Nat :=
  List.replicate 32 0 ++ [0, 0, 0, 0] ++ [1, 5] ++ [255, 255, 255, 255]

/-- C9: `BitcoinTransactionInput::read` panics on this well-typed input.  The
scriptSig `[0x05]` decodes a leading variable-length integer of `5`, and the
sighash lookup `script_sig[5]` indexes out of bounds (the scriptSig has
length 1) — an `index out of bounds` panic, not a typed error.  This refutes
the claim that every slice access in `BitcoinTransactionInput::read` stays in
bounds. -/
theorem C9_input_read_panics :
    @BitcoinTransactionInput.read Unit panicInputBytes =
      .error .panic := by
  decide

/-- A 45-byte transaction-input encoding whose scriptSig is
`[0x01, 0x42, 0x42, 0x42]`: the leading varint is `1`, so the sighash byte is
`script_sig[1] = 0x42`, which is not a defined sighash code. -/
def unknownSighashInputBytes : List Nat :=
  List.replicate 32 0 ++ [0, 0, 0, 0] ++ [4, 1, 66, 66, 66] ++
    [255, 255, 255, 255]

/-- C10: `SignatureHash::from_byte` maps every byte outside
`{0x01, 0x02, 0x03, 0x81, 0x82, 0x83}` to `SIG_ALL` (the fall-through arm),
and consequently `BitcoinTransactionInput::read` silently records `SIG_ALL`
for an input whose scriptSig carries the unrecognized sighash byte `0x42`
instead of failing. -/
theorem C10_from_byte_defaults_sig_all :
    (∀ b : Nat, b ≠ 0x01 → b ≠ 0x02 → b ≠ 0x03 → b ≠ 0x81 → b ≠ 0x82 →
      b ≠ 0x83 → SignatureHash.from_byte b = .SIG_ALL) ∧
    (∃ i : BitcoinTransactionInput Unit,
      BitcoinTransactionInput.read unknownSighashInputBytes = .ok (i, []) ∧
        i.sighash_code = .SIG_ALL ∧ i.script_sig = [1, 66, 66, 66]) := by
  constructor
  · intro b h1 h2 h3 h4 h5 h6
    simp [SignatureHash.from_byte, h1, h2, h3, h4, h5, h6]
  · refine ⟨⟨⟨List.replicate 32 0, 0, none, none, none, none⟩,
      [1, 66, 66, 66], [255, 255, 255, 255], .SIG_ALL, [], true, none, none⟩,
      ?_, rfl, rfl⟩
    decide

/-- C10, witness: the fall-through arm applied at the concrete byte `0x42`. -/
theorem C10_witness : SignatureHash.from_byte 0x42 = .SIG_ALL :=
  C10_from_byte_defaults_sig_all.1 0x42 (by norm_num) (by norm_num)
    (by norm_num) (by norm_num) (by norm_num) (by norm_num)

/-! ## Mnemonics (`src/bitcoin/src/mnemonic.rs`; wordlist collaborator from
`src/bitcoin/src/wordlist/mod.rs`)

The wordlist table (`gyu_model::wordlist::bip39::ENGLISH`, an ordered
2048-entry word table) and the `sha2`/`pbkdf2` crates are external
collaborators whose sources are not under `src/`; they enter as parameters
(`wl`, `sha256`, `pbkdf2impl`).  Bit buffers (`bitvec` with `Msb0` order) are
modelled as `List Bool`, most-significant bit first. -/

/-- `WordlistError` constructors used by `BitcoinWordlist::get_index`
(`wordlist/mod.rs` 17-22). -/
inductive WordlistError where
  | InvalidWord (w : String)
  | InvalidIndex (n : Nat)
  deriving Repr, DecidableEq

/-- `MnemonicError` constructors used by `mnemonic.rs` (the enum lives in the
model crate, not under `src/`; constructors modelled from their uses). -/
inductive MnemonicError where
  | InvalidWordCount (n : Nat)
  | InvalidEntropyLength (n : Nat)
  | InvalidPhrase (s : String)
  | WordlistErr (e : WordlistError)
  deriving Repr, DecidableEq

/-- The 8 bits of a byte, most significant first (`BitVec<Msb0, u8>`). -/
def byteBits (b : Nat) : List Bool :=
  (List.range 8).map (fun j => b.testBit (7 - j))

def bytesToBits (bs : List Nat) : List Bool :=
  (bs.map byteBits).flatten

/-- Worker for `chunksOf`: `acc` holds the current chunk reversed, `k` the
number of elements still wanted in it.  Structural recursion on the list, so
it evaluates inside the kernel. -/
def chunksAux {α : Type} (n : Nat) : List α → List α → Nat → List (List α)
  | [], acc, _ => if acc.isEmpty then [] else [acc.reverse]
  | x :: xs, acc, k =>
      if k ≤ 1 then (acc.reverse ++ [x]) :: chunksAux n xs [] n
      else chunksAux n xs (x :: acc) (k - 1)

/-- Split a list into consecutive chunks of `n` elements (the final chunk may
be shorter), as `BitSlice::chunks` does. -/
def chunksOf {α : Type} (n : Nat) (l : List α) : List (List α) :=
  chunksAux n l [] n

theorem chunksAux_peel {α : Type} (n : Nat) :
    ∀ (xs rest acc : List α), xs ≠ [] →
      chunksAux n (xs ++ rest) acc xs.length =
        (acc.reverse ++ xs) :: chunksAux n rest [] n := by
  intro xs
  induction xs with
  | nil => intro rest acc h; exact absurd rfl h
  | cons x xs ih =>
      intro rest acc _
      by_cases hxsnil : xs = []
      · subst hxsnil
        simp [chunksAux]
      · have hlz : xs.length ≠ 0 := by simpa using hxsnil
        have hlen2 : ¬(xs.length + 1 ≤ 1) := by omega
        simp only [List.cons_append, List.length_cons, chunksAux,
          if_neg hlen2, List.append_eq, Nat.add_sub_cancel]
        rw [ih rest (x :: acc) hxsnil]
        simp

theorem chunksOf_peel {α : Type} {n : Nat} {xs : List α} (h : xs.length = n)
    (hne : xs ≠ []) (rest : List α) :
    chunksOf n (xs ++ rest) = xs :: chunksAux n rest [] n := by
  unfold chunksOf
  subst h
  simpa using chunksAux_peel xs.length xs rest [] hne

theorem chunksOf_len8 : ∀ (k : Nat) (l : List Bool), l.length = 8 * k →
    (chunksOf 8 l).length = k := by
  intro k
  induction k with
  | zero =>
      intro l hl
      have : l = [] := List.eq_nil_of_length_eq_zero (by omega)
      subst this
      rfl
  | succ k ih =>
      intro l hl
      have hsplit : l = l.take 8 ++ l.drop 8 := (List.take_append_drop 8 l).symm
      have htk : (l.take 8).length = 8 := by
        rw [List.length_take]
        omega
      have hne : l.take 8 ≠ [] := by
        intro hc
        rw [hc] at htk
        simp at htk
      rw [hsplit, chunksOf_peel htk hne]
      have : (l.drop 8).length = 8 * k := by
        rw [List.length_drop]
        omega
      have := ih (l.drop 8) this
      unfold chunksOf at this
      simp [this]

/-- The value of a chunk of bits where position `i` carries weight
`2 ^ (p - i)` — the source's `(bit as u16) * 2u16.pow(10 - i)` sum for
`p = 10`, and byte packing for `p = 7`. -/
def chunkValPow (p : Nat) (chunk : List Bool) : Nat :=
  (chunk.enum.map (fun ib => if ib.2 then 2 ^ (p - ib.1) else 0)).sum

/-- Re-pack an `Msb0` bit buffer into bytes (`BitSlice::as_slice`); only used
on buffers whose length is a multiple of 8. -/
def bitsToBytes (bits : List Bool) : List Nat :=
  (chunksOf 8 bits).map (chunkValPow 7)

/-- The 11 bits a word index contributes (`(index as u16).to_be_bytes()`
viewed `Msb0`, positions 5..16 — i.e. bits 10..0 of `index % 2^16`). -/
def indexBits (index : Nat) : List Bool :=
  (List.range 11).map (fun j => (index % 65536).testBit (10 - j))

/-- Rust `str::split(" ")` over the characters of a string (Lean's
`String.splitOn " "`, re-implemented structurally so that it evaluates in the
kernel): split at every space, keeping empty pieces. -/
def splitChars : List Char → List (List Char)
  | [] => [[]]
  | c :: cs =>
      if c = ' ' then [] :: splitChars cs
      else
        match splitChars cs with
        | [] => [[c]]
        | w :: ws => (c :: w) :: ws

def splitSpace (s : String) : List String :=
  (splitChars s.data).map (fun cs => String.mk cs)

/-- `BitcoinWordlist::get_index` (`wordlist/mod.rs` 17-22):
`get_all().iter().position(|element| element == &word)`, wrapped into
`MnemonicError` by the caller's `?`. -/
def get_index (wl : List String) (word : String) : Except MnemonicError Nat :=
  match wl.findIdx? (fun w => w == word) with
  | some i => .ok i
  | none => .error (.WordlistErr (.InvalidWord word))

/-- The `for word in mnemonic { let index = W::get_index(word)?; ... }` loop
of `from_phrase`, collecting the word indices in order. -/
def getIndices (wl : List String) : List String → Except MnemonicError (List Nat)
  | [] => .ok []
  | w :: ws => do
      let i ← get_index wl w
      let is ← getIndices wl ws
      .ok (i :: is)

/-- The word-count match of `from_phrase` (mnemonic.rs 73-80); the error
carries `wc as u8`. -/
def entropy_bit_length (wc : Nat) : Except MnemonicError Nat :=
  if wc = 12 then .ok 128
  else if wc = 15 then .ok 160
  else if wc = 18 then .ok 192
  else if wc = 21 then .ok 224
  else if wc = 24 then .ok 256
  else .error (.InvalidWordCount (wc % 256))

/-- The entropy-length match of `to_phrase` (mnemonic.rs 105-112). -/
def word_count_of_entropy (el : Nat) : Except MnemonicError Nat :=
  if el = 16 then .ok 12
  else if el = 20 then .ok 15
  else if el = 24 then .ok 18
  else if el = 28 then .ok 21
  else if el = 32 then .ok 24
  else .error (.InvalidEntropyLength el)

/-- `to_phrase` (mnemonic.rs 104-143): checksum = first `length/3` bits of
`sha256(entropy)[0]` (`hash[0]`, modelled as `headI` — the real digest is
never empty); the entropy bits plus checksum bits are cut into 11-bit chunks
indexing the wordlist (`wordlist[index]`, in bounds for a 2048-entry table
since an 11-bit chunk value is below 2048, modelled as `getD`). -/
def to_phrase (wl : List String) (sha256 : List Nat → List Nat)
    (entropy : List Nat) : Except MnemonicError String := do
  let length ← word_count_of_entropy entropy.length
  let hash := sha256 entropy
  let checksum := (byteBits hash.headI).take (length / 3)
  let encoding := bytesToBits entropy ++ checksum
  let phrase := (chunksOf 11 encoding).map
    (fun chunk => wl.getD (chunkValPow 10 chunk) "")
  .ok (String.intercalate " " phrase)

/-- `from_phrase` (mnemonic.rs 70-102): split on single spaces, resolve the
word count, map every word to its 11 index bits, truncate the bit buffer to
the entropy length, and accept only if `to_phrase` of the recovered entropy
reproduces the input phrase exactly. -/
def from_phrase (wl : List String) (sha256 : List Nat → List Nat)
    (phrase : String) : Except MnemonicError (List Nat) := do
  let mnemonic := splitSpace phrase
  let length ← entropy_bit_length mnemonic.length
  let indices ← getIndices wl mnemonic
  let entropy := bitsToBytes (((indices.map indexBits).flatten).take length)
  match to_phrase wl sha256 entropy with
  | .ok p => if phrase = p then .ok entropy else .error (.InvalidPhrase phrase)
  | .error e => .error e

/-- `PBKDF2_ROUNDS` (mnemonic.rs line 24). -/
def PBKDF2_ROUNDS : Nat := 64

/-- `PBKDF2_BYTES` (mnemonic.rs line 25). -/
def PBKDF2_BYTES : Nat := 2048

/-- UTF-8 bytes of a string (Rust `str::as_bytes`). -/
def strBytes (s : String) : List Nat :=
  s.toUTF8.toList.map (fun b => b.toNat)

/-- `to_seed` (mnemonic.rs 192-202): a `PBKDF2_BYTES`-byte buffer filled by
`pbkdf2::<Hmac<Sha512>>(phrase_bytes, salt_bytes, PBKDF2_ROUNDS, &mut seed)`
with salt `"mnemonic" + password`.  The external `pbkdf2` crate enters as
`pbkdf2impl password salt rounds dkLen`, which by the PBKDF2 interface
returns exactly `dkLen` bytes — the buffer length the source passes. -/
def to_seed (wl : List String) (sha256 : List Nat → List Nat)
    (pbkdf2impl : List Nat → List Nat → Nat → Nat → List Nat)
    (entropy : List Nat) (password : Option String) :
    Except MnemonicError (List Nat) := do
  let salt := "mnemonic" ++ password.getD ""
  let phrase ← to_phrase wl sha256 entropy
  .ok (pbkdf2impl (strBytes phrase) (strBytes salt) PBKDF2_ROUNDS PBKDF2_BYTES)

/-! ### Mnemonic lemmas -/

theorem getIndices_length {wl : List String} :
    ∀ {ws : List String} {is : List Nat},
      getIndices wl ws = .ok is → is.length = ws.length := by
  intro ws
  induction ws with
  | nil =>
      intro is h
      simp only [getIndices] at h
      cases h
      rfl
  | cons w ws ih =>
      intro is h
      simp only [getIndices] at h
      cases hw : get_index wl w with
      | error e => rw [hw] at h; simp at h
      | ok i =>
          rw [hw] at h
          simp only [except_ok_bind] at h
          cases hws : getIndices wl ws with
          | error e => rw [hws] at h; simp at h
          | ok is' =>
              rw [hws] at h
              simp only [except_ok_bind] at h
              cases h
              simp [ih hws]

theorem indexBits_length (i : Nat) : (indexBits i).length = 11 := by
  simp [indexBits]

theorem flatten_indexBits_length (is : List Nat) :
    ((is.map indexBits).flatten).length = 11 * is.length := by
  induction is with
  | nil => rfl
  | cons i is ih =>
      simp only [List.map_cons, List.flatten_cons, List.length_append,
        indexBits_length, ih, List.length_cons]
      ring

theorem from_phrase_ok_inv {wl : List String} {sha : List Nat → List Nat}
    {s : String} {e : List Nat} (h : from_phrase wl sha s = .ok e) :
    ∃ L is, entropy_bit_length (splitSpace s).length = .ok L ∧
      getIndices wl (splitSpace s) = .ok is ∧
      e = bitsToBytes (((is.map indexBits).flatten).take L) ∧
      to_phrase wl sha e = .ok s := by
  unfold from_phrase at h
  dsimp only at h
  cases hL : entropy_bit_length (splitSpace s).length with
  | error eL => rw [hL] at h; simp at h
  | ok L =>
      rw [hL] at h
      simp only [except_ok_bind] at h
      cases hidx : getIndices wl (splitSpace s) with
      | error eI => rw [hidx] at h; simp at h
      | ok is =>
          rw [hidx] at h
          simp only [except_ok_bind] at h
          cases hp : to_phrase wl sha
              (bitsToBytes (((is.map indexBits).flatten).take L)) with
          | error eP => rw [hp] at h; simp at h
          | ok p =>
              rw [hp] at h
              dsimp only at h
              by_cases hsp : s = p
              · rw [if_pos hsp] at h
                cases h
                exact ⟨L, is, rfl, rfl, rfl, by rw [← hsp] at hp; exact hp⟩
              · rw [if_neg hsp] at h
                simp at h

theorem testBit_one_of_pos {k : Nat} (hk : 0 < k) :
    Nat.testBit 1 k = false := by
  cases k with
  | zero => omega
  | succ k =>
      rw [Nat.testBit_succ]
      simp

theorem indexBits_take7 {i : Nat} (hi : i < 2048) :
    (indexBits (i ^^^ 1)).take 7 = (indexBits i).take 7 := by
  have hx : i ^^^ 1 < 2048 := by
    have := @Nat.xor_lt_two_pow i 1 11 (by simpa using hi)
      (by norm_num)
    simpa using this
  have hm1 : (i ^^^ 1) % 65536 = i ^^^ 1 := Nat.mod_eq_of_lt (by omega)
  have hm2 : i % 65536 = i := Nat.mod_eq_of_lt (by omega)
  have hbit : ∀ k : Nat, 0 < k → (i ^^^ 1).testBit k = i.testBit k := by
    intro k hk
    rw [Nat.testBit_xor, testBit_one_of_pos hk]
    simp
  have hrange : List.range 11 = [0, 1, 2, 3, 4, 5, 6, 7, 8, 9, 10] := rfl
  simp only [indexBits, hm1, hm2, hrange, List.map_cons, List.map_nil]
  simp [List.take, hbit]

/-- Flipping the lowest bit of the final word's index changes only bit 131 of
the 132-bit stream, so the first 128 bits — the recovered entropy — are
unchanged. -/
theorem flip_last_bits_eq {is₀ : List Nat} (h11 : is₀.length = 11) {i : Nat}
    (hi : i < 2048) :
    (((is₀ ++ [i ^^^ 1]).map indexBits).flatten).take 128 =
      (((is₀ ++ [i]).map indexBits).flatten).take 128 := by
  have hpre : ((is₀.map indexBits).flatten).length = 121 := by
    rw [flatten_indexBits_length, h11]
  rw [List.map_append, List.flatten_append, List.map_append,
    List.flatten_append, List.take_append_eq_append_take,
    List.take_append_eq_append_take, hpre]
  congr 1
  simp only [List.map_cons, List.map_nil, List.flatten_cons, List.flatten_nil,
    List.append_nil]
  norm_num
  exact indexBits_take7 hi

/-- C8: `from_phrase` validation, per branch of the source.
(i) A word count outside {12, 15, 18, 21, 24} fails with
`InvalidWordCount (count as u8)`.
(ii) With a supported count, a word missing from the table fails with the
wordlist's `InvalidWord` error for the first missing word (`getIndices`
embeds the index-resolution loop).
(iii) With a supported count and all words resolved, the call succeeds —
returning the recovered entropy — exactly when re-encoding that entropy via
`to_phrase` reproduces the input string character for character, and fails
with `InvalidPhrase` otherwise.
(iv) In particular, for any valid 12-word mnemonic, flipping one bit in the
final word — replacing it by the word whose index differs in the lowest bit,
i.e. flipping bit 131 (a checksum bit) of the encoded stream — yields a
different phrase that fails with `InvalidPhrase`. -/
theorem C8_from_phrase_validation :
    (∀ (wl : List String) (sha : List Nat → List Nat) (s : String),
        ¬((splitSpace s).length = 12 ∨ (splitSpace s).length = 15 ∨
          (splitSpace s).length = 18 ∨ (splitSpace s).length = 21 ∨
          (splitSpace s).length = 24) →
        from_phrase wl sha s =
          .error (.InvalidWordCount ((splitSpace s).length % 256))) ∧
    (∀ (wl : List String) (sha : List Nat → List Nat) (s : String) (L : Nat)
        (w : String),
        entropy_bit_length (splitSpace s).length = .ok L →
        getIndices wl (splitSpace s) = .error (.WordlistErr (.InvalidWord w)) →
        from_phrase wl sha s = .error (.WordlistErr (.InvalidWord w))) ∧
    (∀ (wl : List String) (sha : List Nat → List Nat) (s : String) (L : Nat)
        (is : List Nat) (p : String),
        entropy_bit_length (splitSpace s).length = .ok L →
        getIndices wl (splitSpace s) = .ok is →
        to_phrase wl sha
          (bitsToBytes (((is.map indexBits).flatten).take L)) = .ok p →
        from_phrase wl sha s =
          if s = p then .ok (bitsToBytes (((is.map indexBits).flatten).take L))
          else .error (.InvalidPhrase s)) ∧
    (∀ (wl : List String) (sha : List Nat → List Nat) (s s' : String)
        (e : List Nat) (is₀ : List Nat) (i : Nat),
        from_phrase wl sha s = .ok e →
        (splitSpace s).length = 12 →
        getIndices wl (splitSpace s) = .ok (is₀ ++ [i]) →
        (splitSpace s').length = 12 →
        getIndices wl (splitSpace s') = .ok (is₀ ++ [i ^^^ 1]) →
        i < 2048 → s' ≠ s →
        from_phrase wl sha s' = .error (.InvalidPhrase s')) := by
  refine ⟨?_, ?_, ?_, ?_⟩
  · intro wl sha s h
    push_neg at h
    obtain ⟨h1, h2, h3, h4, h5⟩ := h
    have hE : entropy_bit_length (splitSpace s).length =
        .error (.InvalidWordCount ((splitSpace s).length % 256)) := by
      unfold entropy_bit_length
      rw [if_neg h1, if_neg h2, if_neg h3, if_neg h4, if_neg h5]
    unfold from_phrase
    dsimp only
    rw [hE]
    rfl
  · intro wl sha s L w hL hidx
    unfold from_phrase
    dsimp only
    rw [hL]
    simp only [except_ok_bind]
    rw [hidx]
    rfl
  · intro wl sha s L is p hL hidx hp
    unfold from_phrase
    dsimp only
    rw [hL]
    simp only [except_ok_bind]
    rw [hidx]
    simp only [except_ok_bind]
    rw [hp]
  · intro wl sha s s' e is₀ i hok hc12 hidx hc12' hidx' hi hneq
    obtain ⟨L, is, hL, hidx2, he, htp⟩ := from_phrase_ok_inv hok
    rw [hc12] at hL
    have hL128 : L = 128 := by
      unfold entropy_bit_length at hL
      simp at hL
      omega
    subst hL128
    rw [hidx] at hidx2
    have his : is = is₀ ++ [i] := by
      cases hidx2
      rfl
    subst his
    have h11 : is₀.length = 11 := by
      have := getIndices_length hidx
      rw [hc12] at this
      simp at this
      omega
    unfold from_phrase
    dsimp only
    have hL' : entropy_bit_length (splitSpace s').length = .ok 128 := by
      rw [hc12']
      rfl
    rw [hL']
    simp only [except_ok_bind]
    rw [hidx']
    simp only [except_ok_bind]
    rw [flip_last_bits_eq h11 hi, ← he, htp]
    simp only [if_neg hneq]

/-- The synthetic 2048-entry wordlist used to instantiate the wordlist
collaborator in witnesses: word `i` is the two-character string built from
`i / 46` and `i % 46`. -/
def testWord (i : Nat) : String :=
  String.mk [Char.ofNat (97 + i / 46), Char.ofNat (97 + i % 46)]

def testWordlist : List String := (List.range 2048).map testWord

/-- A constant instantiation of the `sha2` collaborator (its value is
irrelevant to the statements witnessed here). -/
def constSha : List Nat → List Nat := fun _ => List.replicate 32 0

/-- The valid 12-word phrase for the zero entropy under `constSha`. -/
def phrase0 : String := String.intercalate " " (List.replicate 12 (testWord 0))

/-- `phrase0` with the lowest index bit of its final word flipped. -/
def phrase1 : String :=
  String.intercalate " " (List.replicate 11 (testWord 0) ++ [testWord 1])

/-- A 12-word phrase whose first word is not in the table. -/
def phraseBadWord : String :=
  String.intercalate " " ("zzzz" :: List.replicate 11 (testWord 0))

set_option maxRecDepth 100000 in
/-- C8, witness: each branch of the theorem applied at concrete inputs over
the synthetic wordlist — a 2-word phrase (InvalidWordCount 2), a 12-word
phrase with an unknown word (InvalidWord), the valid zero-entropy phrase
(accepted with its entropy), and its final-word bit-flip (InvalidPhrase). -/
theorem C8_witness :
    from_phrase testWordlist constSha "aa aa" =
        .error (.InvalidWordCount 2) ∧
      from_phrase testWordlist constSha phraseBadWord =
        .error (.WordlistErr (.InvalidWord "zzzz")) ∧
      from_phrase testWordlist constSha phrase0 =
        .ok (List.replicate 16 0) ∧
      from_phrase testWordlist constSha phrase1 =
        .error (.InvalidPhrase phrase1) := by
  refine ⟨?_, ?_, ?_, ?_⟩
  · have h := C8_from_phrase_validation.1 testWordlist constSha "aa aa"
      (by decide)
    rw [show (splitSpace "aa aa").length % 256 = 2 from by decide] at h
    exact h
  · exact C8_from_phrase_validation.2.1 testWordlist constSha phraseBadWord
      128 "zzzz" (by decide) (by decide)
  · have h := C8_from_phrase_validation.2.2.1 testWordlist constSha phrase0
      128 (List.replicate 12 0) phrase0 (by decide) (by decide) (by decide)
    rw [if_pos rfl] at h
    rw [show bitsToBytes ((((List.replicate 12 0).map indexBits).flatten).take
      128) = List.replicate 16 0 from by decide] at h
    exact h
  · exact C8_from_phrase_validation.2.2.2 testWordlist constSha phrase0
      phrase1 (List.replicate 16 0) (List.replicate 11 0) 0 (by decide)
      (by decide) (by decide) (by decide) (by decide) (by decide) (by decide)

/-- C1: for every valid mnemonic (entropy of a supported length) and every
optional password, `to_seed` calls PBKDF2-HMAC-SHA512 over the UTF-8 bytes
of the phrase with salt `"mnemonic" + password` — that part of the claim
matches the source — but it passes `PBKDF2_ROUNDS = 64` as the iteration
count and fills a `PBKDF2_BYTES = 2048`-byte output buffer: the two BIP39
constants are swapped, so the returned seed is 2048 bytes long (not 64) and
is computed with 64 iterations (not the BIP39 count 2048).  Quantified over
every PBKDF2 implementation that honours the interface contract of
returning exactly the requested number of derived bytes. -/
theorem C1_to_seed_swapped_constants :
    ∀ (wl : List String) (sha : List Nat → List Nat)
      (pbkdf2impl : List Nat → List Nat → Nat → Nat → List Nat),
      (∀ pw salt r n, (pbkdf2impl pw salt r n).length = n) →
      ∀ (entropy : List Nat) (password : Option String) (wc : Nat),
        word_count_of_entropy entropy.length = .ok wc →
        ∃ phrase seed,
          to_phrase wl sha entropy = .ok phrase ∧
          to_seed wl sha pbkdf2impl entropy password = .ok seed ∧
          seed = pbkdf2impl (strBytes phrase)
            (strBytes ("mnemonic" ++ password.getD ""))
            PBKDF2_ROUNDS PBKDF2_BYTES ∧
          seed.length = 2048 ∧ ¬seed.length = 64 ∧
          PBKDF2_ROUNDS = 64 ∧ PBKDF2_BYTES = 2048 := by
  intro wl sha pbkdf2impl hlen entropy password wc hwc
  have hph : to_phrase wl sha entropy =
      .ok (String.intercalate " "
        ((chunksOf 11 (bytesToBits entropy ++
          (byteBits (sha entropy).headI).take (wc / 3))).map
            (fun chunk => wl.getD (chunkValPow 10 chunk) ""))) := by
    unfold to_phrase
    rw [hwc]
    rfl
  refine ⟨_, _, hph, ?_, rfl, ?_, ?_, rfl, rfl⟩
  · unfold to_seed
    rw [hph]
    rfl
  · rw [hlen]
    rfl
  · rw [hlen]
    decide

/-- C1, witness: the theorem applied at the zero 16-byte entropy with no
password, a constant SHA-256 instantiation, the empty wordlist, and the
all-zero PBKDF2 instantiation — the returned seed is the 2048-byte zero
buffer. -/
theorem C1_witness :
    to_seed [] (fun _ => List.replicate 32 0)
        (fun _ _ _ n => List.replicate n 0) (List.replicate 16 0) none =
        .ok (List.replicate 2048 0) ∧
      PBKDF2_ROUNDS = 64 := by
  obtain ⟨phrase, seed, hph, hseed, hdef, hslen, hne, hR, hB⟩ :=
    C1_to_seed_swapped_constants [] (fun _ => List.replicate 32 0)
      (fun _ _ _ n => List.replicate n 0) (fun _ _ _ n => by simp)
      (List.replicate 16 0) none 12 (by decide)
  refine ⟨?_, hR⟩
  rw [hseed, hdef]
  rfl

/-! ## Extended keys and derivation (`src/bitcoin/src/extended_private_key.rs`,
`extended_public_key.rs`, `derivation_path.rs`; model-crate `ChildIndex` from
`src/model/src/derivation_path.rs`)

The `secp256k1` and `hmac`/`sha2` crates are collaborators and enter as a
`Secp` record of primitives over abstract secret-key and public-key
representations `S` and `K`; fallible primitives return `Option`, `none`
standing for the `secp256k1::Error` that the source converts into its
`Crate` error variant.  `hmac512` stands for HMAC-SHA512 and returns 64
bytes; `HmacSha512::new_varkey` never fails for SHA-512 and is modelled as
total. -/

/-- `ChildIndex` (`src/model/src/derivation_path.rs` 40-44). -/
inductive ChildIndex where
  | Normal (i : Nat)
  | Hardened (i : Nat)
  deriving Repr, DecidableEq

/-- `u32::from(ChildIndex)` (`derivation_path.rs` 90-97 of the model crate):
`Hardened(number)` maps to `number | (1 << 31)`. -/
def ChildIndex.toU32 : ChildIndex → Nat
  | .Normal n => n
  | .Hardened n => n ||| 2147483648

def ChildIndex.is_hardened : ChildIndex → Bool
  | .Normal _ => false
  | .Hardened _ => true

def ChildIndex.is_normal (c : ChildIndex) : Bool := !c.is_hardened

/-- Big-endian fixed-width byte encoding (`u32::to_be_bytes`). -/
def beBytes (w n : Nat) : List Nat :=
  (List.range w).map (fun i => n / 256 ^ (w - 1 - i) % 256)

/-- `DerivationPathError` constructors used by
`src/bitcoin/src/derivation_path.rs`. -/
inductive DerivationPathError where
  | ExpectedBIP32Path
  | ExpectedBIP44Path
  | ExpectedBIP49Path
  deriving Repr, DecidableEq

/-- `BitcoinDerivationPath<N>` (`src/bitcoin/src/derivation_path.rs` 9-19),
instantiated at `N = Mainnet` (`HD_COIN_TYPE = ChildIndex::Hardened(0)`,
`network/mainnet.rs` line 26). -/
inductive BitcoinDerivationPath where
  | BIP32 (path : List ChildIndex)
  | BIP44 (a b c : ChildIndex)
  | BIP49 (a b c : ChildIndex)
  deriving Repr, DecidableEq

/-- Mainnet's `HD_COIN_TYPE`. -/
def HD_COIN_TYPE : ChildIndex := .Hardened 0

/-- `BitcoinDerivationPath::to_vec` (`derivation_path.rs` 23-54). -/
def BitcoinDerivationPath.to_vec :
    BitcoinDerivationPath → Except DerivationPathError (List ChildIndex)
  | .BIP32 path =>
      if path.length < 256 then .ok path
      else .error .ExpectedBIP32Path
  | .BIP44 a b c =>
      if a.is_hardened && b.is_normal && c.is_normal then
        .ok [.Hardened 44, HD_COIN_TYPE, a, b, c]
      else .error .ExpectedBIP44Path
  | .BIP49 a b c =>
      if a.is_hardened && b.is_normal && c.is_normal then
        .ok [.Hardened 49, HD_COIN_TYPE, a, b, c]
      else .error .ExpectedBIP49Path

/-- `ExtendedPrivateKeyError` constructors reached by
`BitcoinExtendedPrivateKey::derive`; `Crypto` stands for the `Crate` variant
wrapping a `secp256k1::Error`. -/
inductive XPrvError where
  | MaximumChildDepthReached (d : Nat)
  | DerivationPathError (e : DerivationPathError)
  | Crypto
  deriving Repr, DecidableEq

/-- `ExtendedPublicKeyError` constructors reached by
`BitcoinExtendedPublicKey::derive` (`src/model/src/extended_public_key.rs`
32-69). -/
inductive XPubError where
  | MaximumChildDepthReached (d : Nat)
  | InvalidChildNumber (expected got : Nat)
  | DerivationPathError (e : DerivationPathError)
  | Crypto
  deriving Repr, DecidableEq

/-- The `secp256k1` / `hmac` collaborator surface used by derivation. -/
structure Secp (S K : Type) where
  /-- `HmacSha512::new_varkey(key)` + `mac.input(msg)` + `mac.result()`:
  64 bytes. -/
  hmac512 : List Nat → List Nat → List Nat
  /-- `SecretKey::parse_slice`. -/
  parseSecret : List Nat → Option S
  /-- `SecretKey::tweak_add_assign` (receiver tweaked by argument). -/
  secTweakAdd : S → S → Option S
  /-- `PublicKey::tweak_add_assign`. -/
  pubTweakAdd : K → S → Option K
  /-- `PublicKey::from_secret_key`. -/
  pubFromSecret : S → K
  /-- `PublicKey::serialize_compressed`. -/
  serCompressed : K → List Nat
  /-- `SecretKey::serialize`. -/
  serSecret : S → List Nat
  /-- `hash160` (`gyu_model::utilities::crypto`). -/
  hash160 : List Nat → List Nat

/-- `BitcoinExtendedPrivateKey<N>` (extended_private_key.rs 27-35). -/
structure BitcoinExtendedPrivateKey (S : Type) where
  format : BitcoinFormat
  depth : Nat
  parent_fingerprint : List Nat
  child_index : ChildIndex
  chain_code : List Nat
  private_key : S
  deriving DecidableEq

/-- `BitcoinExtendedPublicKey<N>` (extended_public_key.rs 24-32). -/
structure BitcoinExtendedPublicKey (K : Type) where
  format : BitcoinFormat
  depth : Nat
  parent_fingerprint : List Nat
  child_index : ChildIndex
  chain_code : List Nat
  public_key : K
  deriving DecidableEq

/-- The private-branch derivation loop (extended_private_key.rs 90-135): the
accumulator `k` is the walking node, and — unlike the public branch — every
step reads its key material from the accumulator.  `depth + 1` is `u8`
arithmetic, modelled `% 256` (release-mode wrap).  A BIP49 path forces the
child format to `P2SH_P2WPKH`. -/
def xprvLoop {S K : Type} (c : Secp S K) (isBip49 : Bool) :
    List ChildIndex → BitcoinExtendedPrivateKey S →
      Except XPrvError (BitcoinExtendedPrivateKey S)
  | [], k => .ok k
  | index :: rest, k => do
      let public_key := c.serCompressed (c.pubFromSecret k.private_key)
      let hmac := c.hmac512 k.chain_code
        ((match index with
          | .Normal _ => public_key
          | .Hardened _ => [0] ++ c.serSecret k.private_key) ++
          beBytes 4 index.toU32)
      let secret0 ←
        match c.parseSecret (hmac.take 32) with
        | some s => pure s
        | none => Except.error .Crypto
      let secret ←
        match c.secTweakAdd secret0 k.private_key with
        | some s => pure s
        | none => Except.error .Crypto
      let chain_code := hmac.drop 32
      let parent_fingerprint := (c.hash160 public_key).take 4
      let format := if isBip49 then BitcoinFormat.P2SH_P2WPKH else k.format
      xprvLoop c isBip49 rest
        ⟨format, (k.depth + 1) % 256, parent_fingerprint, index, chain_code,
          secret⟩

/-- `BitcoinExtendedPrivateKey::derive` (extended_private_key.rs 78-137): the
depth check is made once, before the walk. -/
def BitcoinExtendedPrivateKey.derive {S K : Type} (c : Secp S K)
    (self : BitcoinExtendedPrivateKey S) (path : BitcoinDerivationPath) :
    Except XPrvError (BitcoinExtendedPrivateKey S) :=
  if self.depth = 255 then .error (.MaximumChildDepthReached self.depth)
  else
    match path.to_vec with
    | .ok is =>
        xprvLoop c (match path with | .BIP49 _ _ _ => true | _ => false)
          is self
    | .error e => .error (.DerivationPathError e)

/-- The public-branch derivation loop (extended_public_key.rs 61-101).  Note:
the HMAC key (`self.chain_code`), the HMAC message
(`self.public_key`, compressed), and the tweaked point (`self.public_key`)
are all taken from `self` — the node `derive` was called on — not from the
accumulator; only `format` and `depth` advance through the accumulator.  A
hardened index fails with `InvalidChildNumber(1 << 31, u32::from(index))`. -/
def xpubLoop {S K : Type} (c : Secp S K)
    (self : BitcoinExtendedPublicKey K) :
    List ChildIndex → BitcoinExtendedPublicKey K →
      Except XPubError (BitcoinExtendedPublicKey K)
  | [], acc => .ok acc
  | index :: rest, acc => do
      let public_key_serialized := c.serCompressed self.public_key
      match index with
      | .Hardened _ =>
          Except.error (.InvalidChildNumber (2 ^ 31) index.toU32)
      | .Normal _ => do
          let hmac := c.hmac512 self.chain_code
            (public_key_serialized ++ beBytes 4 index.toU32)
          let chain_code := hmac.drop 32
          let sk ←
            match c.parseSecret (hmac.take 32) with
            | some s => pure s
            | none => Except.error .Crypto
          let public_key ←
            match c.pubTweakAdd self.public_key sk with
            | some k => pure k
            | none => Except.error .Crypto
          let parent_fingerprint := (c.hash160 public_key_serialized).take 4
          xpubLoop c self rest
            ⟨acc.format, (acc.depth + 1) % 256, parent_fingerprint, index,
              chain_code, public_key⟩

/-- `BitcoinExtendedPublicKey::derive` (extended_public_key.rs 52-104): the
depth check is made once, before the walk. -/
def BitcoinExtendedPublicKey.derive {S K : Type} (c : Secp S K)
    (self : BitcoinExtendedPublicKey K) (path : BitcoinDerivationPath) :
    Except XPubError (BitcoinExtendedPublicKey K) :=
  if self.depth = 255 then .error (.MaximumChildDepthReached self.depth)
  else
    match path.to_vec with
    | .ok is => xpubLoop c self is self
    | .error e => .error (.DerivationPathError e)

/-! ### Derivation lemmas -/

theorem xprvLoop_depth {S K : Type} (c : Secp S K) (b : Bool) :
    ∀ (is : List ChildIndex) (k k' : BitcoinExtendedPrivateKey S),
      xprvLoop c b is k = .ok k' → k.depth < 256 →
      k'.depth = (k.depth + is.length) % 256 := by
  intro is
  induction is with
  | nil =>
      intro k k' h hd
      cases h
      simp [Nat.mod_eq_of_lt hd]
  | cons i rest ih =>
      intro k k' h hd
      simp only [xprvLoop] at h
      split at h
      next s0 hps =>
        try simp only [except_pure_ok, except_ok_bind] at h
        split at h
        next s htw =>
          try simp only [except_pure_ok, except_ok_bind] at h
          have h2 : k'.depth = ((k.depth + 1) % 256 + rest.length) % 256 :=
            ih _ k' h (Nat.mod_lt _ (by norm_num))
          simp only [List.length_cons]
          rw [h2, Nat.mod_add_mod]
          omega
        next htw => simp at h
      next hps => simp at h

theorem xprvLoop_no_mcdr {S K : Type} (c : Secp S K) (b : Bool) :
    ∀ (is : List ChildIndex) (k : BitcoinExtendedPrivateKey S) (d : Nat),
      xprvLoop c b is k ≠ .error (.MaximumChildDepthReached d) := by
  intro is
  induction is with
  | nil => intro k d h; cases h
  | cons i rest ih =>
      intro k d h
      simp only [xprvLoop] at h
      split at h
      next s0 hps =>
        try simp only [except_pure_ok, except_ok_bind] at h
        split at h
        next s htw =>
          try simp only [except_pure_ok, except_ok_bind] at h
          exact ih _ d h
        next htw => simp at h
      next hps => simp at h

theorem xpubLoop_depth {S K : Type} (c : Secp S K)
    (self : BitcoinExtendedPublicKey K) :
    ∀ (is : List ChildIndex) (acc acc' : BitcoinExtendedPublicKey K),
      xpubLoop c self is acc = .ok acc' → acc.depth < 256 →
      acc'.depth = (acc.depth + is.length) % 256 := by
  intro is
  induction is with
  | nil =>
      intro acc acc' h hd
      cases h
      simp [Nat.mod_eq_of_lt hd]
  | cons i rest ih =>
      intro acc acc' h hd
      cases i with
      | Hardened n => simp [xpubLoop] at h
      | Normal n =>
          simp only [xpubLoop] at h
          split at h
          next s0 hps =>
            try simp only [except_pure_ok, except_ok_bind] at h
            split at h
            next pk htw =>
              try simp only [except_pure_ok, except_ok_bind] at h
              have h2 : acc'.depth = ((acc.depth + 1) % 256 + rest.length) % 256 :=
                ih _ acc' h (Nat.mod_lt _ (by norm_num))
              simp only [List.length_cons]
              rw [h2, Nat.mod_add_mod]
              omega
            next htw => simp at h
          next hps => simp at h

theorem xpubLoop_no_mcdr {S K : Type} (c : Secp S K)
    (self : BitcoinExtendedPublicKey K) :
    ∀ (is : List ChildIndex) (acc : BitcoinExtendedPublicKey K) (d : Nat),
      xpubLoop c self is acc ≠ .error (.MaximumChildDepthReached d) := by
  intro is
  induction is with
  | nil => intro acc d h; cases h
  | cons i rest ih =>
      intro acc d h
      cases i with
      | Hardened n => simp [xpubLoop] at h
      | Normal n =>
          simp only [xpubLoop] at h
          split at h
          next s0 hps =>
            try simp only [except_pure_ok, except_ok_bind] at h
            split at h
            next pk htw =>
              try simp only [except_pure_ok, except_ok_bind] at h
              exact ih _ d h
            next htw => simp at h
          next hps => simp at h

/-- If the public-branch loop runs a prefix to success, appending a hardened
index makes the whole loop fail with `InvalidChildNumber(1 << 31, index)`. -/
theorem xpubLoop_hardened {S K : Type} (c : Secp S K)
    (self : BitcoinExtendedPublicKey K) :
    ∀ (pre : List ChildIndex) (h : Nat) (rest : List ChildIndex)
      (acc acc' : BitcoinExtendedPublicKey K),
      xpubLoop c self pre acc = .ok acc' →
      xpubLoop c self (pre ++ .Hardened h :: rest) acc =
        .error (.InvalidChildNumber (2 ^ 31)
          (ChildIndex.Hardened h).toU32) := by
  intro pre
  induction pre with
  | nil =>
      intro h rest acc acc' hok
      cases hok
      simp [xpubLoop]
  | cons i pre ih =>
      intro h rest acc acc' hok
      cases i with
      | Hardened n => simp [xpubLoop] at hok
      | Normal n =>
          simp only [xpubLoop, List.cons_append] at hok ⊢
          split at hok
          next s0 hps =>
            try simp only [except_pure_ok, except_ok_bind] at hok
            split at hok
            next pk htw =>
              try simp only [except_pure_ok, except_ok_bind] at hok
              try simp only [except_pure_ok, except_ok_bind]
              rw [htw]
              try simp only [except_pure_ok, except_ok_bind]
              exact ih h rest _ acc' hok
            next htw => simp at hok
          next hps => simp at hok

/-! ### Claims C2, C6, C7 -/

/-- A concrete instantiation of the `secp256k1`/`hmac` collaborator surface
over byte-list keys, used to evaluate the derivation code on explicit
inputs.  (The depth check and the hardened-index rejection run before any
primitive is consulted, so the statements below that concern them do not
depend on this choice.) -/
def demoSecp : Secp (List Nat) (List Nat) :=
  ⟨fun k m => (k ++ m ++ List.replicate 64 0).take 64,
   fun bs => some bs,
   fun s t => some ((t ++ s).take 32),
   fun k s => some ((s ++ k).take 33),
   fun s => (s ++ List.replicate 33 9).take 33,
   fun k => k.take 33,
   fun s => s.take 32,
   fun bs => (bs ++ List.replicate 20 7).take 20⟩

def demoPub0 : BitcoinExtendedPublicKey (List Nat) :=
  ⟨.P2PKH, 0, [0, 0, 0, 0], .Normal 0, List.replicate 32 1,
    List.replicate 33 2⟩

def demoPub255 : BitcoinExtendedPublicKey (List Nat) :=
  { demoPub0 with depth := 255 }

def demoPrv0 : BitcoinExtendedPrivateKey (List Nat) :=
  ⟨.P2PKH, 0, [0, 0, 0, 0], .Normal 0, List.replicate 32 1,
    List.replicate 32 3⟩

def demoPrv255 : BitcoinExtendedPrivateKey (List Nat) :=
  { demoPrv0 with depth := 255 }

/-- C2: the public-branch `derive` loop reads its HMAC key
(`self.chain_code`), HMAC message (`self.public_key`) and tweak base
(`self.public_key`) from the node `derive` was called on rather than from
the node produced by the previous step, so the claimed composition law
fails: deriving the two-index path `[0, 1]` differs from deriving `[0]` and
then `[1]`, and in fact the resulting chain code coincides with that of
deriving the one-index path `[1]` directly — the intermediate step is
ignored except for the depth.  (Evaluated at the explicit `demoSecp`
collaborator instantiation; the private branch, by contrast, walks its
accumulator.) -/
theorem C2_public_derive_skips_chaining :
    BitcoinExtendedPublicKey.derive demoSecp demoPub0
        (.BIP32 [.Normal 0, .Normal 1]) ≠
      (BitcoinExtendedPublicKey.derive demoSecp demoPub0
          (.BIP32 [.Normal 0]) >>= fun n =>
        BitcoinExtendedPublicKey.derive demoSecp n (.BIP32 [.Normal 1])) ∧
    Except.map (fun n => n.chain_code)
        (BitcoinExtendedPublicKey.derive demoSecp demoPub0
          (.BIP32 [.Normal 0, .Normal 1])) =
      Except.map (fun n => n.chain_code)
        (BitcoinExtendedPublicKey.derive demoSecp demoPub0
          (.BIP32 [.Normal 1])) := by
  exact ⟨by decide, by decide⟩

/-- C6, counterexample: both derivation branches check the depth once,
before the walk, so a depth-255 node fails with `MaximumChildDepthReached`
even for the *empty* path — where no child index is applied to any node,
and the claim's "exactly when some child index in the path would be applied
to a node whose depth equals 255" predicts success. -/
theorem C6_counterexample :
    BitcoinExtendedPrivateKey.derive demoSecp demoPrv255 (.BIP32 []) =
        .error (.MaximumChildDepthReached 255) ∧
      BitcoinExtendedPublicKey.derive demoSecp demoPub255 (.BIP32 []) =
        .error (.MaximumChildDepthReached 255) := by
  exact ⟨by decide, by decide⟩

/-- C6 (amended): in both branches, `derive` fails with
`MaximumChildDepthReached` exactly when the *starting* node's depth is 255 —
the check is made once before the walk (so it also fires for an empty path,
and a depth-254 node accepts arbitrarily long paths) — and on success the
resulting depth is the starting depth plus the path length, reduced `% 256`
(`u8` wrap). -/
theorem C6_depth_saturation_amended {S K : Type} (c : Secp S K) :
    (∀ (k : BitcoinExtendedPrivateKey S) (path : BitcoinDerivationPath),
        k.depth = 255 →
        k.derive c path = .error (.MaximumChildDepthReached k.depth)) ∧
    (∀ (k : BitcoinExtendedPrivateKey S) (path : BitcoinDerivationPath)
        (is : List ChildIndex) (k' : BitcoinExtendedPrivateKey S),
        k.depth < 256 → path.to_vec = .ok is → k.derive c path = .ok k' →
        k'.depth = (k.depth + is.length) % 256) ∧
    (∀ (k : BitcoinExtendedPrivateKey S) (path : BitcoinDerivationPath)
        (d : Nat), k.depth ≠ 255 →
        k.derive c path ≠ .error (.MaximumChildDepthReached d)) ∧
    (∀ (k : BitcoinExtendedPublicKey K) (path : BitcoinDerivationPath),
        k.depth = 255 →
        k.derive c path = .error (.MaximumChildDepthReached k.depth)) ∧
    (∀ (k : BitcoinExtendedPublicKey K) (path : BitcoinDerivationPath)
        (is : List ChildIndex) (k' : BitcoinExtendedPublicKey K),
        k.depth < 256 → path.to_vec = .ok is → k.derive c path = .ok k' →
        k'.depth = (k.depth + is.length) % 256) ∧
    (∀ (k : BitcoinExtendedPublicKey K) (path : BitcoinDerivationPath)
        (d : Nat), k.depth ≠ 255 →
        k.derive c path ≠ .error (.MaximumChildDepthReached d)) := by
  refine ⟨?_, ?_, ?_, ?_, ?_, ?_⟩
  · intro k path h
    unfold BitcoinExtendedPrivateKey.derive
    rw [if_pos h]
  · intro k path is k' hlt hvec hok
    unfold BitcoinExtendedPrivateKey.derive at hok
    by_cases h255 : k.depth = 255
    · rw [if_pos h255] at hok
      cases hok
    · rw [if_neg h255, hvec] at hok
      exact xprvLoop_depth c _ is k k' hok hlt
  · intro k path d hne hcontra
    unfold BitcoinExtendedPrivateKey.derive at hcontra
    rw [if_neg hne] at hcontra
    cases hvec : path.to_vec with
    | ok is =>
        rw [hvec] at hcontra
        exact xprvLoop_no_mcdr c _ is k d hcontra
    | error e =>
        rw [hvec] at hcontra
        cases hcontra
  · intro k path h
    unfold BitcoinExtendedPublicKey.derive
    rw [if_pos h]
  · intro k path is k' hlt hvec hok
    unfold BitcoinExtendedPublicKey.derive at hok
    by_cases h255 : k.depth = 255
    · rw [if_pos h255] at hok
      cases hok
    · rw [if_neg h255, hvec] at hok
      exact xpubLoop_depth c k is k k' hok hlt
  · intro k path d hne hcontra
    unfold BitcoinExtendedPublicKey.derive at hcontra
    rw [if_neg hne] at hcontra
    cases hvec : path.to_vec with
    | ok is =>
        rw [hvec] at hcontra
        exact xpubLoop_no_mcdr c k is k d hcontra
    | error e =>
        rw [hvec] at hcontra
        cases hcontra

/-- C6, witness: the amended statement at concrete nodes — a depth-255
private node fails `MaximumChildDepthReached` on a one-index path, and a
depth-0 private node deriving one index ends at depth 1. -/
theorem C6_witness :
    BitcoinExtendedPrivateKey.derive demoSecp demoPrv255
        (.BIP32 [.Normal 3]) = .error (.MaximumChildDepthReached 255) ∧
      Except.map (fun n => n.depth)
        (BitcoinExtendedPrivateKey.derive demoSecp demoPrv0
          (.BIP32 [.Normal 0])) = .ok 1 := by
  constructor
  · exact (C6_depth_saturation_amended demoSecp).1 demoPrv255
      (.BIP32 [.Normal 3]) rfl
  · cases hder : BitcoinExtendedPrivateKey.derive demoSecp demoPrv0
        (.BIP32 [.Normal 0]) with
    | error e =>
        have hok : (BitcoinExtendedPrivateKey.derive demoSecp demoPrv0
            (.BIP32 [.Normal 0])).isOk = true := by decide
        rw [hder] at hok
        simp [Except.isOk, Except.toBool] at hok
    | ok k' =>
        have h2 := (C6_depth_saturation_amended demoSecp).2.1 demoPrv0
          (.BIP32 [.Normal 0]) [.Normal 0] k' (by decide) (by decide) hder
        simp [Except.map, h2, demoPrv0]

/-- C7, counterexample: a depth-255 extended public key fails with
`MaximumChildDepthReached`, not `InvalidChildNumber`, on a hardened path —
the depth check precedes the hardened-index rejection (and runs before any
crypto primitive, so the collaborator instantiation is irrelevant). -/
theorem C7_counterexample :
    BitcoinExtendedPublicKey.derive demoSecp demoPub255
        (.BIP32 [.Hardened 0]) = .error (.MaximumChildDepthReached 255) ∧
      BitcoinExtendedPublicKey.derive demoSecp demoPub255
          (.BIP32 [.Hardened 0]) ≠
        .error (.InvalidChildNumber (2 ^ 31)
          ((ChildIndex.Hardened 0).toU32)) := by
  exact ⟨by decide, by decide⟩

/-- C7 (amended): for every extended public key whose depth is not 255 and
every path whose index list contains a hardened index, `derive` fails with
`InvalidChildNumber(1 << 31, u32(index))` — provided the normal steps before
the first hardened index succeed (each involves a fallible scalar parse and
point tweak; if one of them fails, that error is reported instead, and a
depth-255 node reports `MaximumChildDepthReached`, see
`C7_counterexample`). -/
theorem C7_public_hardened_amended {S K : Type} (c : Secp S K) :
    ∀ (self : BitcoinExtendedPublicKey K) (path : BitcoinDerivationPath)
      (pre : List ChildIndex) (h : Nat) (rest : List ChildIndex)
      (acc' : BitcoinExtendedPublicKey K),
      self.depth ≠ 255 →
      path.to_vec = .ok (pre ++ .Hardened h :: rest) →
      xpubLoop c self pre self = .ok acc' →
      self.derive c path =
        .error (.InvalidChildNumber (2 ^ 31) ((ChildIndex.Hardened h).toU32)) := by
  intro self path pre h rest acc' hne hvec hpre
  unfold BitcoinExtendedPublicKey.derive
  rw [if_neg hne, hvec]
  exact xpubLoop_hardened c self pre h rest self acc' hpre

/-- C7, witness: the amended statement at a depth-0 node and the path `m/0'`
(empty normal prefix). -/
theorem C7_witness :
    BitcoinExtendedPublicKey.derive demoSecp demoPub0 (.BIP32 [.Hardened 5]) =
      .error (.InvalidChildNumber (2 ^ 31) ((ChildIndex.Hardened 5).toU32)) :=
  C7_public_hardened_amended demoSecp demoPub0 (.BIP32 [.Hardened 5]) [] 5 []
    demoPub0 (by decide) (by decide) (by decide)

/-! ## Transaction signing (`transaction.rs` 564-703)

`sign(&self, private_key)` clones the receiver and walks
`self.parameters.inputs` by index, possibly rewriting the input at the
current position of the clone.  Its collaborators — address construction,
the two hash-preimage methods (not under `src/`), SHA-256, the secp256k1
DER signing of this key, and the key's public serializations — are kept
abstract in a `Signer` record; theorems quantify over every
instantiation. -/

/-- The collaborators of `sign` for one fixed `private_key`.  `p2wsh` is
`BitcoinAddress::<N>::p2wsh(&input_script)` and `to_address` is
`private_key.to_address(&format)`, both producing a full address (format
plus abstract payload), their `AddressError`s arriving through `?`;
`p2pkh_hash_preimage`/`segwit_hash_preimage` are the transaction's preimage
methods, abstract over the current transaction state, input position and
sighash code; `sha256` is `Sha256::digest`; `signDer` is
`Message::parse_slice` + `secp256k1::sign` + `serialize_der` for this key;
`is_compressed`, `serPub` and `serPubCompressed` are
`public_key.is_compressed()` and the two secp256k1 point serializations of
`private_key.to_public_key()`. -/
structure Signer (A : Type) where
  p2wsh : List Nat → Except Failure (BitcoinFormat × A)
  to_address : BitcoinFormat → Except Failure (BitcoinFormat × A)
  p2pkh_hash_preimage :
    BitcoinTransactionParameters A → Nat → SignatureHash →
      Except Failure (List Nat)
  segwit_hash_preimage :
    BitcoinTransactionParameters A → Nat → SignatureHash →
      Except Failure (List Nat)
  sha256 : List Nat → List Nat
  signDer : List Nat → Except Failure (List Nat)
  is_compressed : Bool
  serPub : List Nat
  serPubCompressed : List Nat

/-- The `address_is_valid` computation of `sign` (transaction.rs 572-582):
for a P2WSH outpoint the address recomputed from the redeem script must
match (a missing redeem script is `InvalidInputs("P2WSH")`); for every
other format the signer's own address in the outpoint's format must
match. -/
def address_is_valid {A : Type} [DecidableEq A] (sg : Signer A)
    (address : BitcoinFormat × A) (input : BitcoinTransactionInput A) :
    Except Failure Bool :=
  match address.1 with
  | .P2WSH =>
      match input.outpoint.redeem_script with
      | none => .error (.err (.InvalidInputs "P2WSH"))
      | some input_script =>
          match sg.p2wsh input_script with
          | .error e => .error e
          | .ok c_address => .ok (decide (address = c_address))
  | _ =>
      match sg.to_address address.1 with
      | .error e => .error e
      | .ok a => .ok (decide (address = a))

/-- One iteration of the `for (vin, input)` loop of `sign` (transaction.rs
566-701) acting on the accumulated clone `t`; `input` is the element of
`self.parameters.inputs` being visited and `vin` its position.  An
address-less outpoint is `continue`; `transaction.parameters.inputs[vin]`
indexing out of bounds would panic (`Failure.panic`); in the source the
P2WSH arm mutates `segwit_flag`/`script_sig` before its fallible
redeem-script and `additional_witness` lookups, but on `Err` the whole
clone is discarded, so gathering the mutations into the final record is
observationally the same. -/
def signStep {A : Type} [DecidableEq A] (sg : Signer A)
    (input : BitcoinTransactionInput A) (vin : Nat)
    (t : BitcoinTransactionParameters A) :
    Except Failure (BitcoinTransactionParameters A) :=
  match input.outpoint.address with
  | none => .ok t
  | some address =>
      match address_is_valid sg address input with
      | .error e => .error e
      | .ok valid =>
          match t.inputs[vin]? with
          | none => .error .panic
          | some cur =>
              if valid && !cur.is_signed then
                match (match address.1 with
                       | .P2PKH =>
                           sg.p2pkh_hash_preimage t vin input.sighash_code
                       | _ =>
                           sg.segwit_hash_preimage t vin input.sighash_code)
                with
                | .error e => .error e
                | .ok preimage =>
                    let transaction_hash := sg.sha256 (sg.sha256 preimage)
                    match sg.signDer transaction_hash with
                    | .error e => .error e
                    | .ok sigDer =>
                        let sigBody :=
                          sigDer ++ [input.sighash_code.val % 256]
                        let signature :=
                          variable_length_integer sigBody.length ++ sigBody
                        let public_key_bytes :=
                          match address.1, sg.is_compressed with
                          | .P2PKH, false => sg.serPub
                          | _, _ => sg.serPubCompressed
                        let public_key :=
                          public_key_bytes.length % 256 :: public_key_bytes
                        match address.1 with
                        | .P2PKH =>
                            let newInput := { cur with
                              script_sig := signature ++ public_key,
                              is_signed := true }
                            .ok { t with
                              inputs := t.inputs.set vin newInput }
                        | .P2WSH =>
                            match input.outpoint.redeem_script with
                            | none => .error (.err (.InvalidInputs "P2WSH"))
                            | some input_script =>
                                let ser_input_script :=
                                  variable_length_integer input_script.length
                                    ++ input_script
                                match cur.additional_witness with
                                | none =>
                                    .error (.err (.InvalidInputs
                                      "P2WSH: missing additional witness input to complete multi-sig"))
                                | some ow =>
                                    let witness_field :=
                                      match ow.2 with
                                      | true => [ow.1, signature]
                                      | false => [signature, ow.1]
                                    let witness_field :=
                                      match cur.witness_script_data with
                                      | some wsd =>
                                          witness_field ++
                                            [wsd.length % 256 :: wsd]
                                      | none => witness_field
                                    let witness_field :=
                                      witness_field ++ [ser_input_script]
                                    let newInput := { cur with
                                      script_sig := [],
                                      witnesses :=
                                        cur.witnesses ++ witness_field,
                                      is_signed := true }
                                    .ok { t with
                                      segwit_flag := true,
                                      inputs :=
                                        t.inputs.set vin newInput }
                        | .P2SH_P2WPKH =>
                            match input.outpoint.redeem_script with
                            | none =>
                                .error (.err (.InvalidInputs "P2SH_P2WPKH"))
                            | some input_script =>
                                let newInput := { cur with
                                  script_sig :=
                                    variable_length_integer
                                        input_script.length
                                      ++ input_script,
                                  witnesses :=
                                    cur.witnesses ++
                                      [signature, public_key],
                                  is_signed := true }
                                .ok { t with
                                  segwit_flag := true,
                                  inputs :=
                                    t.inputs.set vin newInput }
                        | .Bech32 =>
                            let newInput := { cur with
                              witnesses :=
                                cur.witnesses ++
                                  [signature, public_key],
                              is_signed := true }
                            .ok { t with
                              segwit_flag := true,
                              inputs :=
                                t.inputs.set vin newInput }
              else .ok t

/-- The `for` loop of `sign` over the remaining inputs of `self`, with
`vin` the position of the first of them in the clone `t`. -/
def signGo {A : Type} [DecidableEq A] (sg : Signer A) :
    List (BitcoinTransactionInput A) → Nat →
      BitcoinTransactionParameters A →
      Except Failure (BitcoinTransactionParameters A)
  | [], _, t => .ok t
  | input :: rest, vin, t =>
      match signStep sg input vin t with
      | .error e => .error e
      | .ok t₂ => signGo sg rest (vin + 1) t₂

/-- `sign(&self, private_key)` (transaction.rs 564-703): clone the receiver
and walk `self.parameters.inputs` with the loop body, returning the clone
(`Ok(transaction)`).  The receiver is taken by shared reference and never
written, so the functional reading — argument untouched, new value
returned — is the source's. -/
def sign {A : Type} [DecidableEq A] (sg : Signer A)
    (self : BitcoinTransactionParameters A) :
    Except Failure (BitcoinTransactionParameters A) :=
  signGo sg self.inputs 0 self

/-! Positional list facts used by the signing proofs. -/

theorem getElem?_some_lt {α : Type} (l : List α) (i : Nat) (a : α)
    (h : l[i]? = some a) : i < l.length := by
  by_contra hge
  rw [List.getElem?_eq_none (Nat.le_of_not_lt hge)] at h
  exact Option.noConfusion h

theorem inputs_set_get_self {α : Type} (l : List α) (i : Nat) (a : α)
    (h : i < l.length) : (l.set i a)[i]? = some a :=
  List.getElem?_set_self h

theorem inputs_set_get_ne {α : Type} (l : List α) (i j : Nat) (a : α)
    (h : j ≠ i) : (l.set i a)[j]? = l[j]? :=
  List.getElem?_set_ne (Ne.symm h)

/-- An input the signing loop leaves alone wherever it sits: its outpoint
has no address, or its `address_is_valid` check evaluates without error to
a value that fails the `address_is_valid && !is_signed` guard. -/
def stepInert {A : Type} [DecidableEq A] (sg : Signer A)
    (input : BitcoinTransactionInput A) : Prop :=
  input.outpoint.address = none ∨
    ∃ address v, input.outpoint.address = some address ∧
      address_is_valid sg address input = .ok v ∧
      (v = false ∨ input.is_signed = true)

/-- `address_is_valid` reads the candidate input only through its outpoint
(the redeem script of the P2WSH arm), so inputs sharing an outpoint get the
same verdict. -/
theorem address_is_valid_outpoint {A : Type} [DecidableEq A] (sg : Signer A)
    (address : BitcoinFormat × A) (i₁ i₂ : BitcoinTransactionInput A)
    (h : i₁.outpoint = i₂.outpoint) :
    address_is_valid sg address i₁ = address_is_valid sg address i₂ := by
  unfold address_is_valid
  rw [h]

/-- The loop body returns its state unchanged on an inert input found at
the visited position. -/
theorem signStep_inert {A : Type} [DecidableEq A] (sg : Signer A)
    (input : BitcoinTransactionInput A) (vin : Nat)
    (t : BitcoinTransactionParameters A)
    (hin : stepInert sg input) (hcur : t.inputs[vin]? = some input) :
    signStep sg input vin t = .ok t := by
  unfold signStep
  split
  · rfl
  next address0 haddr0 =>
    rcases hin with haddr | ⟨address, v, haddr, hv, hguard⟩
    · rw [haddr] at haddr0; exact Option.noConfusion haddr0
    · rw [haddr] at haddr0
      injection haddr0 with h1
      subst h1
      split
      next e hv0 => rw [hv] at hv0; exact Except.noConfusion hv0
      next valid hv0 =>
        rw [hv] at hv0
        injection hv0 with h3
        subst h3
        split
        next hnone => rw [hcur] at hnone; exact Option.noConfusion hnone
        next cur hsome =>
          rw [hcur] at hsome
          injection hsome with h2
          subst h2
          have hb : (v && !input.is_signed) = false := by
            rcases hguard with h | h
            · rw [h]; rfl
            · rw [h]; exact Bool.and_false v
          rw [hb]
          simp

/-- Common shape of the four signing arms: the result replaces the visited
slot with a rewritten input that keeps the outpoint and has `is_signed`
set, hence is inert for later passes. -/
theorem signStep_post {A : Type} [DecidableEq A] (sg : Signer A)
    (t : BitcoinTransactionParameters A) (vin : Nat)
    (input inp₂ : BitcoinTransactionInput A)
    (address : BitcoinFormat × A) (sw : Bool)
    (hlt : vin < t.inputs.length)
    (haddr : input.outpoint.address = some address)
    (hv : address_is_valid sg address input = .ok true)
    (hst : input.is_signed = false)
    (hout : inp₂.outpoint = input.outpoint)
    (hsig2 : inp₂.is_signed = true) :
    ∃ input₂,
      (⟨t.version, t.inputs.set vin inp₂, t.outputs, t.lock_time, sw⟩ :
          BitcoinTransactionParameters A).inputs[vin]? = some input₂ ∧
      (⟨t.version, t.inputs.set vin inp₂, t.outputs, t.lock_time, sw⟩ :
          BitcoinTransactionParameters A).inputs.length = t.inputs.length ∧
      (∀ j, j ≠ vin →
        (⟨t.version, t.inputs.set vin inp₂, t.outputs, t.lock_time, sw⟩ :
            BitcoinTransactionParameters A).inputs[j]? = t.inputs[j]?) ∧
      (input.is_signed = true →
        (⟨t.version, t.inputs.set vin inp₂, t.outputs, t.lock_time, sw⟩ :
            BitcoinTransactionParameters A) = t) ∧
      stepInert sg input₂ := by
  refine ⟨inp₂, inputs_set_get_self _ _ _ hlt, List.length_set _ _ _,
    fun j hj => inputs_set_get_ne _ _ _ _ hj,
    fun hsig => by rw [hst] at hsig; exact Bool.noConfusion hsig,
    Or.inr ⟨address, true, by rw [hout]; exact haddr,
      (address_is_valid_outpoint sg address inp₂ input hout).trans hv,
      Or.inr hsig2⟩⟩

/-- Shape of a successful loop-body step at the visited position: the
state keeps its input count, changes at most the visited slot, is
unchanged outright when the visited input was already signed, and the new
occupant of the slot is inert, so a later pass leaves it alone. -/
theorem signStep_ok_shape {A : Type} [DecidableEq A] (sg : Signer A)
    (input : BitcoinTransactionInput A) (vin : Nat)
    (t t₂ : BitcoinTransactionParameters A)
    (h : signStep sg input vin t = .ok t₂)
    (hcur : t.inputs[vin]? = some input) :
    ∃ input₂, t₂.inputs[vin]? = some input₂ ∧
      t₂.inputs.length = t.inputs.length ∧
      (∀ j, j ≠ vin → t₂.inputs[j]? = t.inputs[j]?) ∧
      (input.is_signed = true → t₂ = t) ∧
      stepInert sg input₂ := by
  have hlt : vin < t.inputs.length := getElem?_some_lt _ _ _ hcur
  unfold signStep at h
  split at h
  next haddr =>
    injection h with h2
    subst h2
    exact ⟨input, hcur, rfl, fun j _ => rfl, fun _ => rfl, Or.inl haddr⟩
  next address haddr =>
    obtain ⟨fmt, pa⟩ := address
    split at h
    next e hv => exact Except.noConfusion h
    next valid hv =>
      split at h
      next hnone => rw [hcur] at hnone; exact Option.noConfusion hnone
      next cur hsome =>
        rw [hcur] at hsome
        injection hsome with h2
        subst h2
        split at h
        next hg =>
          have hst : input.is_signed = false := by
            cases hbs : input.is_signed
            · rfl
            · rw [hbs, Bool.not_true, Bool.and_false] at hg
              exact Bool.noConfusion hg
          have hvt : valid = true := by
            cases valid
            · rw [Bool.false_and] at hg
              exact Bool.noConfusion hg
            · rfl
          subst hvt
          cases fmt with
          | P2PKH =>
            try dsimp only at h
            split at h
            next e hpre => exact Except.noConfusion h
            next preimage hpre =>
              try dsimp only at h
              split at h
              next e hsd => exact Except.noConfusion h
              next sigDer hsd =>
                try dsimp only at h
                injection h with h2
                subst h2
                exact signStep_post sg t vin input _ _ _ hlt haddr hv hst
                  rfl rfl
          | P2WSH =>
            try dsimp only at h
            split at h
            next e hpre => exact Except.noConfusion h
            next preimage hpre =>
              try dsimp only at h
              split at h
              next e hsd => exact Except.noConfusion h
              next sigDer hsd =>
                try dsimp only at h
                split at h
                next hred => exact Except.noConfusion h
                next input_script hred =>
                  try dsimp only at h
                  split at h
                  next hws => exact Except.noConfusion h
                  next ow hws =>
                    try dsimp only at h
                    injection h with h2
                    subst h2
                    exact signStep_post sg t vin input _ _ _ hlt haddr hv
                      hst rfl rfl
          | P2SH_P2WPKH =>
            try dsimp only at h
            split at h
            next e hpre => exact Except.noConfusion h
            next preimage hpre =>
              try dsimp only at h
              split at h
              next e hsd => exact Except.noConfusion h
              next sigDer hsd =>
                try dsimp only at h
                split at h
                next hred => exact Except.noConfusion h
                next input_script hred =>
                  try dsimp only at h
                  injection h with h2
                  subst h2
                  exact signStep_post sg t vin input _ _ _ hlt haddr hv hst
                    rfl rfl
          | Bech32 =>
            try dsimp only at h
            split at h
            next e hpre => exact Except.noConfusion h
            next preimage hpre =>
              try dsimp only at h
              split at h
              next e hsd => exact Except.noConfusion h
              next sigDer hsd =>
                try dsimp only at h
                injection h with h2
                subst h2
                exact signStep_post sg t vin input _ _ _ hlt haddr hv hst
                  rfl rfl
        next hg =>
          injection h with h2
          subst h2
          refine ⟨input, hcur, rfl, fun j _ => rfl, fun _ => rfl,
            Or.inr ⟨(fmt, pa), valid, haddr, hv, ?_⟩⟩
          cases hbv : valid with
          | false => exact Or.inl rfl
          | true =>
            cases hbs : input.is_signed with
            | true => exact Or.inr rfl
            | false => exact absurd (by rw [hbv, hbs]; rfl) hg

/-- Invariant of the signing loop over a tail `rest` of the original input
list sitting at positions `vin, vin+1, …` of the clone `t`: on success the
input count is preserved, slots outside the visited range are untouched,
inputs already signed in `t` are preserved byte for byte at their slot,
and a second pass — over whatever list occupies the visited range of the
result — returns the result unchanged. -/
theorem signGo_main {A : Type} [DecidableEq A] (sg : Signer A) :
    ∀ (rest : List (BitcoinTransactionInput A)) (vin : Nat)
      (t t' : BitcoinTransactionParameters A),
      signGo sg rest vin t = .ok t' →
      (∀ j, vin ≤ j → j < vin + rest.length →
          t.inputs[j]? = rest[j - vin]?) →
      t'.inputs.length = t.inputs.length ∧
      (∀ j, j < vin ∨ vin + rest.length ≤ j →
          t'.inputs[j]? = t.inputs[j]?) ∧
      (∀ (j : Nat) (i : BitcoinTransactionInput A),
          t.inputs[j]? = some i → i.is_signed = true →
          t'.inputs[j]? = some i) ∧
      (∀ rest', rest'.length = rest.length →
          (∀ j, vin ≤ j → j < vin + rest'.length →
              t'.inputs[j]? = rest'[j - vin]?) →
          signGo sg rest' vin t' = .ok t') := by
  intro rest
  induction rest with
  | nil =>
    intro vin t t' h hS
    simp only [signGo] at h
    injection h with h2
    subst h2
    refine ⟨rfl, fun j _ => rfl, fun j i hj _ => hj, ?_⟩
    intro rest' hlen hS'
    have hnil : rest' = [] := List.length_eq_zero.mp (by rw [hlen]; rfl)
    subst hnil
    rfl
  | cons input rest ih =>
    intro vin t t' h hS
    simp only [signGo] at h
    cases hstep : signStep sg input vin t with
    | error e =>
        rw [hstep] at h
        exact Except.noConfusion (show Except.error e = Except.ok t' from h)
    | ok t₂ =>
      rw [hstep] at h
      have h : signGo sg rest (vin + 1) t₂ = .ok t' := h
      have hcur : t.inputs[vin]? = some input := by
        have h0 := hS vin (Nat.le_refl vin)
          (by simp only [List.length_cons]; omega)
        rw [Nat.sub_self] at h0
        simpa using h0
      obtain ⟨input₂, hget₂, hlen₂, hloc₂, hskip₂, hinert₂⟩ :=
        signStep_ok_shape sg input vin t t₂ hstep hcur
      have hS₂ : ∀ j, vin + 1 ≤ j → j < (vin + 1) + rest.length →
          t₂.inputs[j]? = rest[j - (vin + 1)]? := by
        intro j h1 h2
        have hne : j ≠ vin := by omega
        rw [hloc₂ j hne,
          hS j (by omega) (by simp only [List.length_cons]; omega),
          show j - vin = (j - (vin + 1)) + 1 by omega]
        simp
      obtain ⟨ihlen, ihout, ihsig, ihrerun⟩ := ih (vin + 1) t₂ t' h hS₂
      refine ⟨ihlen.trans hlen₂, ?_, ?_, ?_⟩
      · intro j hj
        simp only [List.length_cons] at hj
        have hne : j ≠ vin := by omega
        rw [ihout j (by omega), hloc₂ j hne]
      · intro j i hj hsig
        by_cases hje : j = vin
        · subst hje
          have hii : i = input := by
            rw [hcur] at hj
            injection hj with h5
            exact h5.symm
          subst hii
          have ht₂ : t₂ = t := hskip₂ hsig
          subst ht₂
          exact ihsig j i hj hsig
        · refine ihsig j i ?_ hsig
          rw [hloc₂ j hje]
          exact hj
      · intro rest' hlen' hS'
        cases rest' with
        | nil => exact absurd hlen' (by simp)
        | cons i₀ rest'' =>
          have hlen'' : rest''.length = rest.length := by
            simp only [List.length_cons] at hlen'
            omega
          have hget' : t'.inputs[vin]? = some input₂ := by
            rw [ihout vin (Or.inl (Nat.lt_succ_self vin))]
            exact hget₂
          have hi₀ : input₂ = i₀ := by
            have h5 := hS' vin (Nat.le_refl vin)
              (by simp only [List.length_cons]; omega)
            rw [Nat.sub_self, hget'] at h5
            simp only [List.getElem?_cons_zero] at h5
            injection h5 with h6
          subst hi₀
          have hstep' : signStep sg input₂ vin t' = .ok t' :=
            signStep_inert sg input₂ vin t' hinert₂ hget'
          have hS'' : ∀ j, vin + 1 ≤ j → j < (vin + 1) + rest''.length →
              t'.inputs[j]? = rest''[j - (vin + 1)]? := by
            intro j h1 h2
            rw [hS' j (by omega) (by simp only [List.length_cons]; omega),
              show j - vin = (j - (vin + 1)) + 1 by omega]
            simp
          have hrest : signGo sg rest'' (vin + 1) t' = .ok t' :=
            ihrerun rest'' hlen'' hS''
          simp only [signGo]
          rw [hstep']
          exact hrest

/-- C5: `sign` is a pure transform — it builds and returns a new
transaction from `&self`, never mutating the receiver (inherent in the
functional embedding) — and, for every signer instantiation, whenever it
succeeds, every input whose `is_signed` flag was already set is left byte
for byte untouched at its position, and signing the result again (with
this or, by the universal quantification over `sg`, any other signer for
which it succeeds) changes nothing: `sign (sign tx) = sign tx`. -/
theorem C5_sign_pure_idempotent {A : Type} [DecidableEq A] (sg : Signer A)
    (tx t' : BitcoinTransactionParameters A)
    (h : sign sg tx = .ok t') :
    (∀ (j : Nat) (i : BitcoinTransactionInput A),
        tx.inputs[j]? = some i → i.is_signed = true →
        t'.inputs[j]? = some i) ∧
      sign sg t' = .ok t' := by
  have hmain := signGo_main sg tx.inputs 0 tx t' h
    (fun j _ _ => by rw [Nat.sub_zero])
  exact ⟨hmain.2.2.1,
    hmain.2.2.2 t'.inputs hmain.1 (fun j _ _ => by rw [Nat.sub_zero])⟩

/-- A concrete signer over `A := Nat` used by the C5 witness. -/
def sgW : Signer Nat where
  p2wsh := fun s => .ok (.P2WSH, s.length)
  to_address := fun f => .ok (f, 7)
  p2pkh_hash_preimage := fun _ _ _ => .ok [1, 2]
  segwit_hash_preimage := fun _ _ _ => .ok [3, 4]
  sha256 := fun bs => 0 :: bs
  signDer := fun bs => .ok (bs ++ [9])
  is_compressed := true
  serPub := [4, 4]
  serPubCompressed := [2, 2]

/-- A P2PKH input of `sgW`'s own address, already signed. -/
def inpW : BitcoinTransactionInput Nat where
  outpoint :=
    { reverse_transaction_id := List.replicate 32 0
      index := 0
      amount := none
      script_pub_key := none
      redeem_script := none
      address := some (.P2PKH, 7) }
  script_sig := [0xaa]
  sequence := [0xff, 0xff, 0xff, 0xff]
  sighash_code := .SIG_ALL
  witnesses := []
  is_signed := true
  additional_witness := none
  witness_script_data := none

/-- A one-input transaction whose single input is already signed. -/
def txW : BitcoinTransactionParameters Nat where
  version := 1
  inputs := [inpW]
  outputs := []
  lock_time := 0
  segwit_flag := false

/-- C5, witness: signing `txW` succeeds and returns it unchanged (its only
input is already signed), and the theorem recovers both the untouched
signed input and the idempotence equation on this instance. -/
theorem C5_witness :
    sign sgW txW = .ok txW ∧ txW.inputs[0]? = some inpW := by
  have h := C5_sign_pure_idempotent sgW txW txW (by decide)
  exact ⟨h.2, h.1 0 inpW (by decide) rfl⟩

end Gyu
